import Mathlib

/-!
Shallow embedding of `pkg/packages/release.go` from the knative operator
repository, together with the parts of its dependency
`golang.org/x/mod/semver` (v0.4.1, pinned in go.mod) that the file uses.
Go strings are modelled as `List Char`; `time.Time` is modelled as `Int`
(`t.After(u)` is `t > u`).  Go's `sort.Sort` guarantees only that the result
is a permutation of the input that is sorted for the given `Less`; it is
modelled by `List.insertionSort`, which produces such a permutation
deterministically.  A Go runtime panic (out-of-range slice index) is modelled
by an `Option` result of `none`.
-/

/-- Go strings are modelled as lists of characters. -/
abbrev GoStr := List Char

/-- ASCII digit test (`'0' <= c && c <= '9'` in Go). -/
def isDigitC (c : Char) : Bool := ('0' ≤ c && c ≤ '9')

/-- Port of `isIdentChar` from golang.org/x/mod/semver. -/
def isIdentCharC (c : Char) : Bool :=
  ('A' ≤ c && c ≤ 'Z') || ('a' ≤ c && c ≤ 'z') || ('0' ≤ c && c ≤ '9') || c = '-'

/-- Port of `isNum` from golang.org/x/mod/semver: every byte is a digit. -/
def isNumCL (s : GoStr) : Bool := s.all isDigitC

/-- Port of `isBadNum` from golang.org/x/mod/semver: an all-digit identifier
longer than one byte that starts with '0'. -/
def isBadNumCL (s : GoStr) : Bool :=
  s.all isDigitC && decide (1 < s.length) && (s.headD ' ' = '0')

/-- Port of `parseInt` from golang.org/x/mod/semver: splits a leading run of
digits off `v`; fails on an empty run and on a leading zero (unless the run
is exactly "0"). -/
def parseIntCL : GoStr → Option (GoStr × GoStr)
  | [] => none
  | c :: rest =>
    if isDigitC c then
      let t := c :: rest.takeWhile isDigitC
      if c = '0' && decide (t.length ≠ 1) then none
      else some (t, rest.dropWhile isDigitC)
    else none

/-- Splits a character list on '.' separators; `[] ↦ [[]]`, matching the Go
scan in `parsePrerelease`/`parseBuild`, which sees one empty identifier in an
empty chunk and rejects it. -/
def splitOnDot : GoStr → List GoStr
  | [] => [[]]
  | c :: rest =>
    if c = '.' then [] :: splitOnDot rest
    else
      match splitOnDot rest with
      | [] => [[c]]
      | p :: ps => (c :: p) :: ps

/-- Port of `parsePrerelease` from golang.org/x/mod/semver: consumes
"-ident.ident..." up to a '+' or the end of the string; every dot-separated
identifier must be nonempty, consist of identifier characters, and not be an
all-digit identifier with a leading zero.  Returns the identifier list and
the unconsumed remainder. -/
def parsePreCL : GoStr → Option (List GoStr × GoStr)
  | '-' :: rest =>
    let chunk := rest.takeWhile (fun c => c ≠ '+')
    let parts := splitOnDot chunk
    if parts.all (fun p => !p.isEmpty && p.all isIdentCharC && !isBadNumCL p) then
      some (parts, rest.dropWhile (fun c => c ≠ '+'))
    else none
  | _ => none

/-- Port of `parseBuild` from golang.org/x/mod/semver, which consumes the
whole remainder after '+': every dot-separated identifier must be nonempty
and consist of identifier characters (leading zeros are allowed in build
metadata). -/
def buildOkCL (rest : GoStr) : Bool :=
  (splitOnDot rest).all (fun p => !p.isEmpty && p.all isIdentCharC)

/-- The result of `parse` in golang.org/x/mod/semver: the literal digit
strings of the major, minor and patch numbers plus the list of prerelease
identifiers (empty when there is no prerelease part).  Build metadata is
validated by `parseCL` but not retained, since `Compare` never reads it. -/
structure SemVer where
  major : GoStr
  minor : GoStr
  patch : GoStr
  prerelease : List GoStr
deriving DecidableEq, Repr

/-- Port of `parse` from golang.org/x/mod/semver: requires the 'v' prefix
(`v == "" || v[0] != 'v'` fails); minor/patch default to "0"; an optional
"-prerelease" part and an optional "+build" part may follow the patch number;
trailing junk is rejected. -/
def parseCL (v : GoStr) : Option SemVer :=
  match v with
  | [] => none
  | c0 :: v1 =>
    if c0 ≠ 'v' then none
    else match parseIntCL v1 with
      | none => none
      | some (maj, v2) =>
        match v2 with
        | [] => some ⟨maj, ['0'], ['0'], []⟩
        | c2 :: v3 =>
          if c2 ≠ '.' then none
          else match parseIntCL v3 with
            | none => none
            | some (mnr, v4) =>
              match v4 with
              | [] => some ⟨maj, mnr, ['0'], []⟩
              | c4 :: v5 =>
                if c4 ≠ '.' then none
                else match parseIntCL v5 with
                  | none => none
                  | some (pat, v6) =>
                    match (match v6 with
                           | '-' :: _ => parsePreCL v6
                           | _ => some ([], v6)) with
                    | none => none
                    | some (pre, v7) =>
                      match v7 with
                      | [] => some ⟨maj, mnr, pat, pre⟩
                      | c7 :: v8 =>
                        if c7 = '+' && buildOkCL v8 then some ⟨maj, mnr, pat, pre⟩
                        else none

/-- Lexicographic strict order on character lists (Go's `<` on strings). -/
def lexLt : GoStr → GoStr → Bool
  | [], [] => false
  | [], _ :: _ => true
  | _ :: _, [] => false
  | a :: as, b :: bs => if a < b then true else if b < a then false else lexLt as bs

/-- Port of `compareInt` from golang.org/x/mod/semver: compares two decimal
digit strings numerically, via length and then byte order. -/
def compareIntCL (x y : GoStr) : Int :=
  if x = y then 0
  else if x.length < y.length then -1
  else if y.length < x.length then 1
  else if lexLt x y then -1 else 1

/-- One step of `comparePrerelease` in golang.org/x/mod/semver: comparison of
two dot-separated prerelease identifiers (`dx`/`dy` in the Go loop). -/
def compareIdentCL (x y : GoStr) : Int :=
  if x = y then 0
  else if isNumCL x ≠ isNumCL y then (if isNumCL x then -1 else 1)
  else if isNumCL x && decide (x.length < y.length) then -1
  else if isNumCL x && decide (y.length < x.length) then 1
  else if lexLt x y then -1 else 1

/-- The identifier-by-identifier loop of `comparePrerelease`: on the first
differing identifier the identifier comparison decides; if one side runs out
first it is smaller. -/
def comparePreListCL : List GoStr → List GoStr → Int
  | [], [] => 0
  | [], _ :: _ => -1
  | _ :: _, [] => 1
  | x :: xs, y :: ys => if x = y then comparePreListCL xs ys else compareIdentCL x y

/-- Port of `comparePrerelease` from golang.org/x/mod/semver: a version with
no prerelease identifiers has higher precedence than one with some. -/
def comparePrereleaseCL (x y : List GoStr) : Int :=
  if x = y then 0
  else
    match x, y with
    | [], _ => 1
    | _, [] => -1
    | _ :: _, _ :: _ => comparePreListCL x y

/-- The structural part of `semver.Compare`: major, then minor, then patch,
then prerelease. -/
def compareSemVer (a b : SemVer) : Int :=
  if compareIntCL a.major b.major ≠ 0 then compareIntCL a.major b.major
  else if compareIntCL a.minor b.minor ≠ 0 then compareIntCL a.minor b.minor
  else if compareIntCL a.patch b.patch ≠ 0 then compareIntCL a.patch b.patch
  else comparePrereleaseCL a.prerelease b.prerelease

/-- Port of `semver.Compare`: an invalid version compares less than a valid
one and equal to any other invalid version. -/
def semverCompare (v w : GoStr) : Int :=
  match parseCL v, parseCL w with
  | none, none => 0
  | none, some _ => -1
  | some _, none => 1
  | some pv, some pw => compareSemVer pv pw

/-- Port of `semver.IsValid`. -/
def semverIsValid (v : GoStr) : Bool := (parseCL v).isSome

/-- Port of `semver.MajorMinor`.  For a valid version the Go function returns
the prefix of the original string through the minor number, which equals
`"v" + major + "." + minor` because `parse` keeps the literal digit
substrings (defaulted components render as "0"); for an invalid version it
returns "". -/
def semverMajorMinor (v : GoStr) : GoStr :=
  match parseCL v with
  | none => []
  | some pv => 'v' :: (pv.major ++ '.' :: pv.minor)

example : parseCL "v1.2.3".data = some ⟨['1'], ['2'], ['3'], []⟩ := by decide
example : parseCL "v1.2.3-alpha.1+build7".data =
    some ⟨['1'], ['2'], ['3'], [['a','l','p','h','a'], ['1']]⟩ := by decide
example : parseCL "v1.2".data = some ⟨['1'], ['2'], ['0'], []⟩ := by decide
example : parseCL "v1".data = some ⟨['1'], ['0'], ['0'], []⟩ := by decide
example : parseCL "not-a-version".data = none := by decide
example : parseCL "v01.2.3".data = none := by decide
example : parseCL "v1.2.3-alpha.01".data = none := by decide
example : parseCL "1.2.3".data = none := by decide
example : parseCL "v1.2.3-".data = none := by decide
example : semverCompare "v1.2.3".data "v1.2.10".data = -1 := by decide
example : semverCompare "v1.2.3-alpha".data "v1.2.3".data = -1 := by decide
example : semverCompare "v1.2.3-alpha.9".data "v1.2.3-alpha.10".data = -1 := by decide
example : semverCompare "v1.2.3-1".data "v1.2.3-alpha".data = -1 := by decide
example : semverCompare "v2.0.0".data "v1.9.9".data = 1 := by decide
example : semverCompare "bogus".data "v0.0.1".data = -1 := by decide
example : semverCompare "bogus".data "junk".data = 0 := by decide
example : semverMajorMinor "v1.2.3-alpha".data = "v1.2".data := by decide
example : semverMajorMinor "v1".data = "v1.0".data := by decide
example : semverMajorMinor "junk".data = [] := by decide

/-- `Asset` from release.go: a resource to be stored on disk.  `secondary`
is set for assets that came from an aligned dependency release. -/
structure Asset where
  Name : GoStr
  URL : GoStr
  secondary : Bool
deriving DecidableEq, Repr

/-- `Release` from release.go: all assets published under one tag.
`time.Time` is modelled as `Int`. -/
structure Release where
  Org : GoStr
  Repo : GoStr
  TagName : GoStr
  Created : Int
  Assets : List Asset
deriving DecidableEq, Repr

/-- `strings.HasSuffix s sfx`. -/
def hasSuffixCL (s sfx : GoStr) : Bool := sfx.isSuffixOf s

/-- The suffix of the pre-install-jobs marker in `Asset.Less`. -/
def preInstallSuffix : GoStr := "-pre-install-jobs.yaml".data

/-- The suffix of the CRD marker in `Asset.Less`. -/
def crdsSuffix : GoStr := "-crds.yaml".data

/-- The suffix of the post-install-jobs marker in `Asset.Less`. -/
def postInstallSuffix : GoStr := "-post-install-jobs.yaml".data

/-- The suffix of the sugar-controller marker in `Asset.Less`. -/
def sugarControllerSuffix : GoStr := "-sugar-controller.yaml".data

/-- Port of `Asset.Less` (release.go lines 53-90): the chain of suffix
rules, then primary-before-secondary, then name order. -/
def Asset.Less (a b : Asset) : Bool :=
  if hasSuffixCL a.Name preInstallSuffix then true
  else if hasSuffixCL b.Name preInstallSuffix then false
  else if hasSuffixCL a.Name crdsSuffix then true
  else if hasSuffixCL b.Name crdsSuffix then false
  else if hasSuffixCL a.Name postInstallSuffix then false
  else if hasSuffixCL b.Name postInstallSuffix then true
  else if hasSuffixCL a.Name sugarControllerSuffix then false
  else if hasSuffixCL b.Name sugarControllerSuffix then true
  else if a.secondary ≠ b.secondary then b.secondary
  else lexLt a.Name b.Name

/-- Port of `Release.Less` (release.go lines 93-95): a release sorts before
another when `semver.Compare` of the tags is positive (newest first). -/
def Release.Less (r b : Release) : Bool :=
  decide (0 < semverCompare r.TagName b.TagName)

/-- The outcome of `sort.Sort(releaseList(...))`: a permutation of the input
that is sorted for `Release.Less` (no later element is `Less` than an earlier
one).  Go's sort guarantees exactly this; `insertionSort` produces such a
permutation deterministically. -/
def sortReleases (rl : List Release) : List Release :=
  rl.insertionSort (fun a b => Release.Less b a = false)

/-- The outcome of `sort.Sort(assets)` in `HandleRelease`, as a sorted
permutation for `Asset.Less`. -/
def sortAssets (al : List Asset) : List Asset :=
  al.insertionSort (fun a b => Asset.Less b a = false)

/-- Port of `assetList.FilterAssets` (release.go lines 140-150): keep the
assets for which `accept` returns a nonempty name, renamed to that name.  The
Go loop ranges over copies of the elements and appends them to a freshly
allocated slice, so the receiver is not written. -/
def FilterAssets (al : List Asset) (accept : GoStr → GoStr) : List Asset :=
  al.filterMap (fun asset =>
    let name := accept asset.Name
    if name = [] then none else some ⟨name, asset.URL, asset.secondary⟩)

/-- The loop body of `LastN` (release.go lines 232-242) after the first
element: keep releases while the major.minor series is unchanged; when it
changes, decrement `minors` and truncate just before the element that made
the count reach zero. -/
def lastNTake (previous : GoStr) (minors : Int) : List Release → List Release
  | [] => []
  | r :: rest =>
    if semverMajorMinor r.TagName = previous then r :: lastNTake previous minors rest
    else if minors - 1 = 0 then []
    else r :: lastNTake (semverMajorMinor r.TagName) (minors - 1) rest

/-- Port of `LastN` (release.go lines 225-245): copy, sort newest-first, then
walk the series.  `none` models the Go panic at `retval[0].TagName` when the
release list is empty (`retval[0]` indexes an empty slice). -/
def LastN (minors : Int) (allReleases : List Release) : Option (List Release) :=
  match sortReleases allReleases with
  | [] => none
  | r0 :: rest => some (r0 :: lastNTake (semverMajorMinor r0.TagName) minors rest)

/-- `LastN` together with the caller's slice as observed after the call.  In
the Go body the only writes go to `retval`, which `make` allocates fresh and
`copy` fills before `sort.Sort(retval)` runs, so the input slice cannot be
aliased by the sort and is unchanged when `LastN` returns. -/
def LastNSt (minors : Int) (allReleases : List Release) :
    Option (List Release) × List Release :=
  (LastN minors allReleases, allReleases)

/-- The `start`/`end` scan of `HandleRelease` (release.go lines 169-180):
walk the sorted candidates, recording in `start` the first index whose
major.minor series compares equal to the target's, and stopping at the first
index whose series compares older; that index becomes `end` (when the scan
never stops, `end` stays `len(candidates)`, the value returned when the list
is exhausted). -/
def alignScan (mm : GoStr) (st : Option Nat) (i : Nat) : List Release → Option Nat × Nat
  | [] => (st, i)
  | c :: rest =>
    let comp := semverCompare mm (semverMajorMinor c.TagName)
    let st' := if st = none ∧ comp = 0 then some i else st
    if 0 < comp then (st', i) else alignScan mm st' (i + 1) rest

/-- The `timeMatch` scan of `HandleRelease` (release.go lines 183-189): the
index of the first block element created strictly before the target
(`r.Created.After(srcRelease.Created)`), if any. -/
def timeScan (created : Int) (i : Nat) : List Release → Option Nat
  | [] => none
  | c :: rest => if created > c.Created then some i else timeScan created (i + 1) rest

/-- One iteration of the dependency loop of `HandleRelease` (release.go
lines 169-191) applied to the already sorted candidate list: restrict to the
`[start:end)` block of the target's series and pick `block[timeMatch]`, where
`timeMatch` defaults to the last index of the block.  `none` models the Go
panic at `candidates[start:end]` when `start` is still `-1` (no candidate's
series matched the target's). -/
def alignSorted (mm : GoStr) (created : Int) (candidates : List Release) : Option Release :=
  match alignScan mm none 0 candidates with
  | (none, _) => none
  | (some s, e) =>
    let block := (candidates.drop s).take (e - s)
    let timeMatch := (timeScan created 0 block).getD (block.length - 1)
    block[timeMatch]?

/-- The release-alignment step of `HandleRelease` for one dependency source:
sort the source's candidate releases newest-first, then select the release
whose assets will be merged (release.go lines 167-191). -/
def align (r : Release) (candidates : List Release) : Option Release :=
  alignSorted (semverMajorMinor r.TagName) r.Created (sortReleases candidates)

/-- Modelled from the spec: a `Source` is an "AcceptRule-bearing source
identifier" (§3); `id` is the `String()` key into `allReleases` and
`Accept tag name` is the pure filter/rename rule ("" = exclude).  The
`Package`/`Source` declarations live outside `release.go` and are not under
`src/`; only this shape is needed by `HandleRelease`. -/
structure Source where
  id : GoStr
  Accept : GoStr → GoStr → GoStr

/-- Modelled from the spec: a `Package` names a primary source and an ordered
list of additional (dependency) sources (§3). -/
structure Package where
  Name : GoStr
  Primary : Source
  Additional : List Source

/-- The `allReleases` map, as an association list with the first matching
key authoritative (Go maps have unique keys). -/
abbrev ReleaseMap := List (GoStr × List Release)

/-- `allReleases[src.String()]`: first matching entry, or Go's nil slice for
a missing key. -/
def lookupMap : ReleaseMap → GoStr → List Release
  | [], _ => []
  | kv :: rest, k => if kv.1 = k then kv.2 else lookupMap rest k

/-- Replacing the slice held under one key of the map: `sort.Sort` reorders
the backing array of the slice stored in the map, so after the call the map
holds the sorted sequence under that key. -/
def updateMap : ReleaseMap → GoStr → List Release → ReleaseMap
  | [], _, _ => []
  | kv :: rest, k, v => if kv.1 = k then (kv.1, v) :: rest else kv :: updateMap rest k v

/-- The dependency loop of `HandleRelease` (release.go lines 166-198),
threading the composed asset list and the observable state of `allReleases`:
for each additional source, `sort.Sort(releaseList(candidates))` sorts the
map's slice in place (recorded via `updateMap`), the aligned release is
selected, and its filtered assets are marked secondary and appended.  A
`none` asset result models the slice-bounds panic of the alignment step;
map mutations made before the panic persist. -/
def handleReleaseLoop (mm : GoStr) (created : Int) :
    List Source → List Asset → ReleaseMap → Option (List Asset) × ReleaseMap
  | [], assets, m => (some assets, m)
  | src :: rest, assets, m =>
    let candidates := sortReleases (lookupMap m src.id)
    let m' := updateMap m src.id candidates
    match alignSorted mm created candidates with
    | none => (none, m')
    | some candidate =>
      let newAssets := (FilterAssets candidate.Assets (src.Accept candidate.TagName)).map
        (fun a => ⟨a.Name, a.URL, true⟩)
      handleReleaseLoop mm created rest (assets ++ newAssets) m'

/-- The pure core of `HandleRelease` (release.go lines 154-199): the composed
and sorted asset list, `none` modelling the panic when a dependency has no
release in the target's series, together with the state of `allReleases`
after the call.  Directory creation and the download loop (lines 157-161 and
201-219) are I/O on external collaborators and outside the embedding. -/
def HandleRelease (p : Package) (r : Release) (allReleases : ReleaseMap) :
    Option (List Asset) × ReleaseMap :=
  let assets0 := FilterAssets r.Assets (p.Primary.Accept r.TagName)
  match handleReleaseLoop (semverMajorMinor r.TagName) r.Created p.Additional assets0 allReleases with
  | (none, m) => (none, m)
  | (some assets, m) => (some (sortAssets assets), m)

/-! ### Order properties of the comparison chain -/

theorem lexLt_irrefl (x : GoStr) : lexLt x x = false := by
  induction x with
  | nil => rfl
  | cons a as ih => simp [lexLt, ih]

theorem lexLt_asymm : ∀ {x y : GoStr}, lexLt x y = true → lexLt y x = false
  | [], [], h => by simp [lexLt] at h
  | [], _ :: _, _ => by simp [lexLt]
  | _ :: _, [], h => by simp [lexLt] at h
  | a :: as, b :: bs, h => by
    simp only [lexLt] at h ⊢
    rcases lt_trichotomy a b with hab | hab | hab
    · simp [hab, not_lt_of_lt hab]
    · subst hab; simp only [lt_irrefl, if_false] at h ⊢
      exact lexLt_asymm h
    · simp [hab, not_lt_of_lt hab] at h

theorem lexLt_trans : ∀ {x y z : GoStr},
    lexLt x y = true → lexLt y z = true → lexLt x z = true
  | [], _, _ :: _, _, _ => by simp [lexLt]
  | [], _ :: _, [], _, h2 => by simp [lexLt] at h2
  | [], [], [], h1, _ => by simp [lexLt] at h1
  | _ :: _, [], _, h1, _ => by simp [lexLt] at h1
  | _ :: _, _ :: _, [], _, h2 => by simp [lexLt] at h2
  | a :: as, b :: bs, c :: cs, h1, h2 => by
    simp only [lexLt] at h1 h2 ⊢
    rcases lt_trichotomy a b with hab | hab | hab
    · rcases lt_trichotomy b c with hbc | hbc | hbc
      · simp [lt_trans hab hbc]
      · subst hbc; simp [hab]
      · simp [hbc, not_lt_of_lt hbc] at h2
    · subst hab
      rcases lt_trichotomy a c with hac | hac | hac
      · simp [hac]
      · subst hac
        simp only [lt_irrefl, if_false] at h1 h2 ⊢
        exact lexLt_trans h1 h2
      · simp [hac, not_lt_of_lt hac] at h2
    · simp [hab, not_lt_of_lt hab] at h1

theorem lexLt_connex : ∀ {x y : GoStr},
    lexLt x y = false → lexLt y x = false → x = y
  | [], [], _, _ => rfl
  | [], _ :: _, h1, _ => by simp [lexLt] at h1
  | _ :: _, [], _, h2 => by simp [lexLt] at h2
  | a :: as, b :: bs, h1, h2 => by
    simp only [lexLt] at h1 h2
    rcases lt_trichotomy a b with hab | hab | hab
    · simp [hab] at h1
    · subst hab
      simp only [lt_irrefl, if_false] at h1 h2
      exact congrArg (a :: ·) (lexLt_connex h1 h2)
    · simp [hab, not_lt_of_lt hab] at h2

/-- For distinct lists exactly one direction of `lexLt` holds. -/
theorem lexLt_of_not (hne : x ≠ y) (h : lexLt x y = false) : lexLt y x = true := by
  cases hyx : lexLt y x with
  | true => rfl
  | false => exact absurd (lexLt_connex h hyx) hne

theorem compareIntCL_self (x : GoStr) : compareIntCL x x = 0 := by
  simp [compareIntCL]

theorem compareIntCL_eq_zero_iff {x y : GoStr} : compareIntCL x y = 0 ↔ x = y := by
  unfold compareIntCL
  split_ifs with h1 h2 h3 h4 <;> simp_all

theorem compareIntCL_range (x y : GoStr) :
    compareIntCL x y = -1 ∨ compareIntCL x y = 0 ∨ compareIntCL x y = 1 := by
  unfold compareIntCL
  split_ifs <;> simp

theorem compareIntCL_anti (x y : GoStr) : compareIntCL x y = -compareIntCL y x := by
  unfold compareIntCL
  rcases eq_or_ne x y with rfl | hne
  · simp
  · rcases lt_trichotomy x.length y.length with hl | hl | hl
    · simp [hne, Ne.symm hne, hl, not_lt_of_lt hl]
    · simp only [hne, Ne.symm hne, if_false, hl, lt_irrefl, if_false]
      cases hxy : lexLt x y with
      | true => simp [hl, lexLt_asymm hxy]
      | false => simp [hl, hxy, lexLt_of_not hne hxy]
    · simp [hne, Ne.symm hne, hl, not_lt_of_lt hl]

/-- Nonstrict characterization of `compareIntCL`. -/
theorem compareIntCL_nonneg_iff {x y : GoStr} :
    0 ≤ compareIntCL x y ↔
      y.length < x.length ∨ (x.length = y.length ∧ (x = y ∨ lexLt y x = true)) := by
  unfold compareIntCL
  split_ifs with h1 h2 h3 h4
  · subst h1; simp
  · constructor
    · intro h; exfalso; omega
    · rintro (h | ⟨h, _⟩) <;> (exfalso; omega)
  · constructor
    · intro _; exact Or.inl h3
    · intro _; norm_num
  · constructor
    · intro h; exfalso; omega
    · rintro (h | ⟨he, (rfl | hlt)⟩)
      · exfalso; omega
      · exact absurd rfl h1
      · exfalso
        have := lexLt_asymm hlt
        rw [this] at h4
        exact Bool.true_eq_false.mp h4.symm
  · constructor
    · intro _
      refine Or.inr ⟨by omega, Or.inr ?_⟩
      exact lexLt_of_not h1 (Bool.not_eq_true _ ▸ by simpa using h4)
    · intro _; norm_num

theorem compareIntCL_trans_nonneg {x y z : GoStr}
    (h1 : 0 ≤ compareIntCL x y) (h2 : 0 ≤ compareIntCL y z) :
    0 ≤ compareIntCL x z := by
  rw [compareIntCL_nonneg_iff] at h1 h2 ⊢
  rcases h1 with h1 | ⟨h1l, h1e⟩
  · rcases h2 with h2 | ⟨h2l, _⟩
    · exact Or.inl (lt_trans h2 h1)
    · exact Or.inl (h2l ▸ h1)
  · rcases h2 with h2 | ⟨h2l, h2e⟩
    · exact Or.inl (h1l ▸ h2)
    · refine Or.inr ⟨h1l.trans h2l, ?_⟩
      rcases h1e with rfl | h1e
      · exact h2e
      · rcases h2e with rfl | h2e
        · exact Or.inr h1e
        · exact Or.inr (lexLt_trans h2e h1e)

theorem compareIntCL_trans_pos {x y z : GoStr}
    (h1 : 0 < compareIntCL x y) (h2 : 0 < compareIntCL y z) :
    0 < compareIntCL x z := by
  have h3 := compareIntCL_trans_nonneg (le_of_lt h1) (le_of_lt h2)
  rcases lt_or_eq_of_le h3 with h | h
  · exact h
  · exfalso
    have hxz : x = z := compareIntCL_eq_zero_iff.mp h.symm
    subst hxz
    have := compareIntCL_anti x y
    omega

theorem compareIdentCL_eq_zero_iff {x y : GoStr} : compareIdentCL x y = 0 ↔ x = y := by
  unfold compareIdentCL
  split_ifs <;> simp_all

theorem compareIdentCL_anti (x y : GoStr) : compareIdentCL x y = -compareIdentCL y x := by
  unfold compareIdentCL
  rcases eq_or_ne x y with rfl | hne
  · simp
  · by_cases hx : isNumCL x = true <;> by_cases hy : isNumCL y = true
    · simp only [hne, Ne.symm hne, if_false, hx, hy, ne_eq, not_true_eq_false,
        if_false, Bool.true_and, decide_eq_true_eq]
      rcases lt_trichotomy x.length y.length with hl | hl | hl
      · simp [hl, not_lt_of_lt hl]
      · simp only [hl, lt_irrefl, if_false]
        cases hxy : lexLt x y with
        | true => simp [lexLt_asymm hxy]
        | false => simp [hxy, lexLt_of_not hne hxy]
      · simp [hl, not_lt_of_lt hl]
    · simp [hne, Ne.symm hne, hx, hy]
    · simp [hne, Ne.symm hne, hx, hy]
    · rw [Bool.not_eq_true] at hx hy
      simp only [hne, Ne.symm hne, if_false, hx, hy, ne_eq, not_false_eq_true,
        Bool.false_and, if_false]
      cases hxy : lexLt x y with
      | true => simp [lexLt_asymm hxy]
      | false => simp [hxy, lexLt_of_not hne hxy]

theorem compareIdentCL_nonneg_iff {x y : GoStr} (hne : x ≠ y) :
    0 ≤ compareIdentCL x y ↔
      (isNumCL x = false ∧ isNumCL y = true)
      ∨ (isNumCL x = true ∧ isNumCL y = true ∧
          (y.length < x.length ∨ (x.length = y.length ∧ lexLt y x = true)))
      ∨ (isNumCL x = false ∧ isNumCL y = false ∧ lexLt y x = true) := by
  unfold compareIdentCL
  cases hx : isNumCL x <;> cases hy : isNumCL y
  · -- both non-numeric: only the lexicographic tail matters
    simp only [hx, hy, hne, if_false, ne_eq, not_false_eq_true, Bool.false_and,
      if_true, if_false, Bool.false_eq_true, false_and, and_false, false_or,
      or_false, true_and, and_true]
    cases hxy : lexLt x y with
    | true => simp [lexLt_asymm hxy]
    | false => simp [lexLt_of_not hne hxy]
  · -- x non-numeric, y numeric: x is larger
    simp only [hx, hy, hne, if_false, ne_eq, if_true, Bool.false_eq_true,
      Bool.true_eq_false, false_and, and_false, false_or, or_false, true_and,
      and_true]
    norm_num
  · -- x numeric, y non-numeric: x is smaller
    simp only [hx, hy, hne, if_false, ne_eq, if_true, Bool.false_eq_true,
      Bool.true_eq_false, false_and, and_false, false_or, or_false, true_and,
      and_true]
    norm_num
  · -- both numeric: length, then lexicographic
    simp only [hx, hy, hne, if_false, ne_eq, not_true_eq_false, Bool.true_and,
      decide_eq_true_eq, Bool.true_eq_false, false_and, and_false, false_or,
      or_false, true_and, if_false]
    rcases lt_trichotomy x.length y.length with hl | hl | hl
    · rw [if_pos hl]
      constructor
      · intro h; exfalso; omega
      · rintro (h | ⟨h, _⟩) <;> (exfalso; omega)
    · rw [if_neg (by omega), if_neg (by omega)]
      cases hxy : lexLt x y with
      | true =>
        rw [if_pos rfl]
        constructor
        · intro h; exfalso; omega
        · rintro (h | ⟨_, h2⟩)
          · exfalso; omega
          · rw [lexLt_asymm hxy] at h2; exact (Bool.false_ne_true h2).elim
      | false =>
        rw [if_neg Bool.false_ne_true]
        constructor
        · intro _; exact Or.inr ⟨hl, lexLt_of_not hne hxy⟩
        · intro _; norm_num
    · rw [if_neg (by omega), if_pos hl]
      constructor
      · intro _; exact Or.inl hl
      · intro _; norm_num

theorem compareIdentCL_absurd_nonneg {x y : GoStr} (hne : x ≠ y)
    (h1 : 0 ≤ compareIdentCL x y) (h2 : 0 ≤ compareIdentCL y x) : False := by
  have ha := compareIdentCL_anti x y
  have h0 : compareIdentCL x y ≠ 0 := fun h => hne (compareIdentCL_eq_zero_iff.mp h)
  omega

theorem compareIdentCL_trans_nonneg {x y z : GoStr}
    (h1 : 0 ≤ compareIdentCL x y) (h2 : 0 ≤ compareIdentCL y z) :
    0 ≤ compareIdentCL x z := by
  rcases eq_or_ne x y with rfl | hxy
  · exact h2
  rcases eq_or_ne y z with rfl | hyz
  · exact h1
  rcases eq_or_ne x z with rfl | hxz
  · exact (compareIdentCL_absurd_nonneg hxy h1 h2).elim
  rw [compareIdentCL_nonneg_iff hxy] at h1
  rw [compareIdentCL_nonneg_iff hyz] at h2
  rw [compareIdentCL_nonneg_iff hxz]
  rcases h1 with ⟨h1x, h1y⟩ | ⟨h1x, h1y, h1l⟩ | ⟨h1x, h1y, h1l⟩ <;>
    rcases h2 with ⟨h2y, h2z⟩ | ⟨h2y, h2z, h2l⟩ | ⟨h2y, h2z, h2l⟩
  · rw [h1y] at h2y; exact absurd h2y (by simp)
  · exact Or.inl ⟨h1x, h2z⟩
  · rw [h1y] at h2y; exact absurd h2y (by simp)
  · rw [h1y] at h2y; exact absurd h2y (by simp)
  · refine Or.inr (Or.inl ⟨h1x, h2z, ?_⟩)
    rcases h1l with h1l | ⟨h1e, h1lex⟩
    · rcases h2l with h2l | ⟨h2e, _⟩
      · exact Or.inl (lt_trans h2l h1l)
      · exact Or.inl (h2e ▸ h1l)
    · rcases h2l with h2l | ⟨h2e, h2lex⟩
      · exact Or.inl (h1e ▸ h2l)
      · exact Or.inr ⟨h1e.trans h2e, lexLt_trans h2lex h1lex⟩
  · rw [h1y] at h2y; exact absurd h2y (by simp)
  · exact Or.inl ⟨h1x, h2z⟩
  · rw [h1y] at h2y; exact absurd h2y (by simp)
  · exact Or.inr (Or.inr ⟨h1x, h2z, lexLt_trans h2l h1l⟩)

theorem compareIdentCL_range (x y : GoStr) :
    compareIdentCL x y = -1 ∨ compareIdentCL x y = 0 ∨ compareIdentCL x y = 1 := by
  unfold compareIdentCL
  split_ifs <;> simp

theorem comparePreListCL_eq_zero_iff : ∀ {x y : List GoStr}, comparePreListCL x y = 0 ↔ x = y
  | [], [] => by simp [comparePreListCL]
  | [], _ :: _ => by simp [comparePreListCL]
  | _ :: _, [] => by simp [comparePreListCL]
  | a :: as, b :: bs => by
    simp only [comparePreListCL]
    rcases eq_or_ne a b with rfl | hab
    · rw [if_pos rfl, comparePreListCL_eq_zero_iff]
      simp
    · rw [if_neg hab, compareIdentCL_eq_zero_iff]
      simp [hab]

theorem comparePreListCL_anti : ∀ (x y : List GoStr), comparePreListCL x y = -comparePreListCL y x
  | [], [] => by simp [comparePreListCL]
  | [], _ :: _ => by simp [comparePreListCL]
  | _ :: _, [] => by simp [comparePreListCL]
  | a :: as, b :: bs => by
    simp only [comparePreListCL]
    rcases eq_or_ne a b with rfl | hab
    · rw [if_pos rfl, if_pos rfl]
      exact comparePreListCL_anti as bs
    · rw [if_neg hab, if_neg (Ne.symm hab)]
      exact compareIdentCL_anti a b

theorem comparePreListCL_trans_nonneg : ∀ {x y z : List GoStr},
    0 ≤ comparePreListCL x y → 0 ≤ comparePreListCL y z → 0 ≤ comparePreListCL x z
  | [], [], _, _, h2 => h2
  | [], _ :: _, _, h1, _ => absurd h1 (by norm_num [comparePreListCL])
  | _ :: _, [], [], _, _ => by norm_num [comparePreListCL]
  | _ :: _, [], _ :: _, _, h2 => absurd h2 (by norm_num [comparePreListCL])
  | _ :: _, _ :: _, [], _, _ => by norm_num [comparePreListCL]
  | a :: as, b :: bs, c :: cs, h1, h2 => by
    simp only [comparePreListCL] at h1 h2 ⊢
    rcases eq_or_ne a b with rfl | hab
    · rw [if_pos rfl] at h1
      rcases eq_or_ne a c with rfl | hac
      · rw [if_pos rfl] at h2 ⊢
        exact comparePreListCL_trans_nonneg h1 h2
      · rw [if_neg hac] at h2 ⊢
        exact h2
    · rw [if_neg hab] at h1
      rcases eq_or_ne b c with rfl | hbc
      · rw [if_pos rfl] at h2
        rw [if_neg hab]
        exact h1
      · rw [if_neg hbc] at h2
        rcases eq_or_ne a c with rfl | hac
        · exact (compareIdentCL_absurd_nonneg hab h1 h2).elim
        · rw [if_neg hac]
          exact compareIdentCL_trans_nonneg h1 h2

theorem comparePrereleaseCL_eq_zero_iff {x y : List GoStr} :
    comparePrereleaseCL x y = 0 ↔ x = y := by
  unfold comparePrereleaseCL
  rcases eq_or_ne x y with rfl | hne
  · simp
  · rw [if_neg hne]
    cases x with
    | nil =>
      cases y with
      | nil => exact absurd rfl hne
      | cons b bs => simp
    | cons a as =>
      cases y with
      | nil => simp
      | cons b bs => rw [comparePreListCL_eq_zero_iff]

theorem comparePrereleaseCL_anti (x y : List GoStr) :
    comparePrereleaseCL x y = -comparePrereleaseCL y x := by
  unfold comparePrereleaseCL
  rcases eq_or_ne x y with rfl | hne
  · simp
  · rw [if_neg hne, if_neg (Ne.symm hne)]
    cases x with
    | nil =>
      cases y with
      | nil => exact absurd rfl hne
      | cons b bs => simp
    | cons a as =>
      cases y with
      | nil => simp
      | cons b bs => exact comparePreListCL_anti _ _

theorem comparePrereleaseCL_trans_nonneg {x y z : List GoStr}
    (h1 : 0 ≤ comparePrereleaseCL x y) (h2 : 0 ≤ comparePrereleaseCL y z) :
    0 ≤ comparePrereleaseCL x z := by
  rcases eq_or_ne x y with rfl | hxy
  · exact h2
  rcases eq_or_ne y z with rfl | hyz
  · exact h1
  rcases eq_or_ne x z with rfl | hxz
  · exfalso
    have ha := comparePrereleaseCL_anti x y
    have h0 : comparePrereleaseCL x y ≠ 0 :=
      fun h => hxy (comparePrereleaseCL_eq_zero_iff.mp h)
    omega
  · unfold comparePrereleaseCL at h1 h2 ⊢
    rw [if_neg hxy] at h1
    rw [if_neg hyz] at h2
    rw [if_neg hxz]
    cases x with
    | nil => cases z with
      | nil => exact absurd rfl hxz
      | cons c cs => norm_num
    | cons a as =>
      cases y with
      | nil => exact absurd h1 (by norm_num)
      | cons b bs =>
        cases z with
        | nil => exact absurd h2 (by norm_num)
        | cons c cs => exact comparePreListCL_trans_nonneg h1 h2

theorem comparePreListCL_range : ∀ (x y : List GoStr),
    comparePreListCL x y = -1 ∨ comparePreListCL x y = 0 ∨ comparePreListCL x y = 1
  | [], [] => by simp [comparePreListCL]
  | [], _ :: _ => by simp [comparePreListCL]
  | _ :: _, [] => by simp [comparePreListCL]
  | a :: as, b :: bs => by
    simp only [comparePreListCL]
    rcases eq_or_ne a b with rfl | hab
    · rw [if_pos rfl]
      exact comparePreListCL_range as bs
    · rw [if_neg hab]
      exact compareIdentCL_range a b

theorem comparePrereleaseCL_range (x y : List GoStr) :
    comparePrereleaseCL x y = -1 ∨ comparePrereleaseCL x y = 0 ∨ comparePrereleaseCL x y = 1 := by
  rcases eq_or_ne x y with rfl | hne
  · simp [comparePrereleaseCL]
  · unfold comparePrereleaseCL
    rw [if_neg hne]
    cases x with
    | nil => cases y with
      | nil => simp
      | cons b bs => simp
    | cons a as =>
      cases y with
      | nil => simp
      | cons b bs => exact comparePreListCL_range _ _

theorem compareSemVer_self (a : SemVer) : compareSemVer a a = 0 := by
  simp [compareSemVer, compareIntCL_self, comparePrereleaseCL]

theorem compareSemVer_anti (a b : SemVer) : compareSemVer a b = -compareSemVer b a := by
  unfold compareSemVer
  have hM := compareIntCL_anti a.major b.major
  have hm := compareIntCL_anti a.minor b.minor
  have hp := compareIntCL_anti a.patch b.patch
  have hr := comparePrereleaseCL_anti a.prerelease b.prerelease
  split_ifs <;> omega

theorem compareSemVer_nonneg_iff {a b : SemVer} :
    0 ≤ compareSemVer a b ↔
      0 < compareIntCL a.major b.major
      ∨ (a.major = b.major ∧ (0 < compareIntCL a.minor b.minor
        ∨ (a.minor = b.minor ∧ (0 < compareIntCL a.patch b.patch
          ∨ (a.patch = b.patch ∧ 0 ≤ comparePrereleaseCL a.prerelease b.prerelease))))) := by
  unfold compareSemVer
  split_ifs with h1 h2 h3
  · constructor
    · intro h
      left
      rcases compareIntCL_range a.major b.major with hr | hr | hr <;> omega
    · rintro (h | ⟨hm, _⟩)
      · omega
      · exfalso; rw [hm, compareIntCL_self] at h1; exact h1 rfl
  · have hM : a.major = b.major := compareIntCL_eq_zero_iff.mp (not_ne_iff.mp h1)
    constructor
    · intro h
      refine Or.inr ⟨hM, Or.inl ?_⟩
      rcases compareIntCL_range a.minor b.minor with hr | hr | hr <;> omega
    · rintro (h | ⟨_, h | ⟨hm, _⟩⟩)
      · rw [hM, compareIntCL_self] at h; omega
      · omega
      · exfalso; rw [hm, compareIntCL_self] at h2; exact h2 rfl
  · have hM : a.major = b.major := compareIntCL_eq_zero_iff.mp (not_ne_iff.mp h1)
    have hmn : a.minor = b.minor := compareIntCL_eq_zero_iff.mp (not_ne_iff.mp h2)
    constructor
    · intro h
      refine Or.inr ⟨hM, Or.inr ⟨hmn, Or.inl ?_⟩⟩
      rcases compareIntCL_range a.patch b.patch with hr | hr | hr <;> omega
    · rintro (h | ⟨_, h | ⟨_, h | ⟨hp, _⟩⟩⟩)
      · rw [hM, compareIntCL_self] at h; omega
      · rw [hmn, compareIntCL_self] at h; omega
      · omega
      · exfalso; rw [hp, compareIntCL_self] at h3; exact h3 rfl
  · have hM : a.major = b.major := compareIntCL_eq_zero_iff.mp (not_ne_iff.mp h1)
    have hmn : a.minor = b.minor := compareIntCL_eq_zero_iff.mp (not_ne_iff.mp h2)
    have hp : a.patch = b.patch := compareIntCL_eq_zero_iff.mp (not_ne_iff.mp h3)
    constructor
    · intro h
      exact Or.inr ⟨hM, Or.inr ⟨hmn, Or.inr ⟨hp, h⟩⟩⟩
    · rintro (h | ⟨_, h | ⟨_, h | ⟨_, h⟩⟩⟩)
      · rw [hM, compareIntCL_self] at h; omega
      · rw [hmn, compareIntCL_self] at h; omega
      · rw [hp, compareIntCL_self] at h; omega
      · exact h

theorem compareSemVer_trans_nonneg {a b c : SemVer}
    (h1 : 0 ≤ compareSemVer a b) (h2 : 0 ≤ compareSemVer b c) :
    0 ≤ compareSemVer a c := by
  rw [compareSemVer_nonneg_iff] at h1 h2 ⊢
  rcases h1 with h1 | ⟨e1, h1⟩
  · rcases h2 with h2 | ⟨e2, _⟩
    · exact Or.inl (compareIntCL_trans_pos h1 h2)
    · exact Or.inl (e2 ▸ h1)
  · rcases h2 with h2 | ⟨e2, h2⟩
    · exact Or.inl (e1 ▸ h2)
    · refine Or.inr ⟨e1.trans e2, ?_⟩
      rcases h1 with h1 | ⟨f1, h1⟩
      · rcases h2 with h2 | ⟨f2, _⟩
        · exact Or.inl (compareIntCL_trans_pos h1 h2)
        · exact Or.inl (f2 ▸ h1)
      · rcases h2 with h2 | ⟨f2, h2⟩
        · exact Or.inl (f1 ▸ h2)
        · refine Or.inr ⟨f1.trans f2, ?_⟩
          rcases h1 with h1 | ⟨g1, h1⟩
          · rcases h2 with h2 | ⟨g2, _⟩
            · exact Or.inl (compareIntCL_trans_pos h1 h2)
            · exact Or.inl (g2 ▸ h1)
          · rcases h2 with h2 | ⟨g2, h2⟩
            · exact Or.inl (g1 ▸ h2)
            · exact Or.inr ⟨g1.trans g2, comparePrereleaseCL_trans_nonneg h1 h2⟩

theorem compareSemVer_range (a b : SemVer) :
    compareSemVer a b = -1 ∨ compareSemVer a b = 0 ∨ compareSemVer a b = 1 := by
  unfold compareSemVer
  split_ifs with h1 h2 h3
  · rcases compareIntCL_range a.major b.major with h | h | h <;> omega
  · rcases compareIntCL_range a.minor b.minor with h | h | h <;> omega
  · rcases compareIntCL_range a.patch b.patch with h | h | h <;> omega
  · exact comparePrereleaseCL_range _ _

theorem semverCompare_nn {u v : GoStr} (hu : parseCL u = none) (hv : parseCL v = none) :
    semverCompare u v = 0 := by
  unfold semverCompare; rw [hu, hv]

theorem semverCompare_ns {u v : GoStr} {q : SemVer} (hu : parseCL u = none)
    (hv : parseCL v = some q) : semverCompare u v = -1 := by
  unfold semverCompare; rw [hu, hv]

theorem semverCompare_sn {u v : GoStr} {p : SemVer} (hu : parseCL u = some p)
    (hv : parseCL v = none) : semverCompare u v = 1 := by
  unfold semverCompare; rw [hu, hv]

theorem semverCompare_ss {u v : GoStr} {p q : SemVer} (hu : parseCL u = some p)
    (hv : parseCL v = some q) : semverCompare u v = compareSemVer p q := by
  unfold semverCompare; rw [hu, hv]

theorem semverCompare_self (v : GoStr) : semverCompare v v = 0 := by
  cases hv : parseCL v with
  | none => rw [semverCompare_nn hv hv]
  | some p => rw [semverCompare_ss hv hv]; exact compareSemVer_self p

theorem semverCompare_anti (v w : GoStr) : semverCompare v w = -semverCompare w v := by
  cases hv : parseCL v with
  | none =>
    cases hw : parseCL w with
    | none => rw [semverCompare_nn hv hw, semverCompare_nn hw hv]; rfl
    | some q => rw [semverCompare_ns hv hw, semverCompare_sn hw hv]
  | some p =>
    cases hw : parseCL w with
    | none => rw [semverCompare_sn hv hw, semverCompare_ns hw hv]; rfl
    | some q =>
      rw [semverCompare_ss hv hw, semverCompare_ss hw hv]
      exact compareSemVer_anti p q

theorem semverCompare_range (v w : GoStr) :
    semverCompare v w = -1 ∨ semverCompare v w = 0 ∨ semverCompare v w = 1 := by
  cases hv : parseCL v with
  | none =>
    cases hw : parseCL w with
    | none => rw [semverCompare_nn hv hw]; norm_num
    | some q => rw [semverCompare_ns hv hw]; norm_num
  | some p =>
    cases hw : parseCL w with
    | none => rw [semverCompare_sn hv hw]; norm_num
    | some q => rw [semverCompare_ss hv hw]; exact compareSemVer_range p q

theorem semverCompare_trans_nonneg {u v w : GoStr}
    (h1 : 0 ≤ semverCompare u v) (h2 : 0 ≤ semverCompare v w) :
    0 ≤ semverCompare u w := by
  cases hu : parseCL u with
  | none =>
    cases hv : parseCL v with
    | none =>
      cases hw : parseCL w with
      | none => rw [semverCompare_nn hu hw]
      | some pw => rw [semverCompare_ns hv hw] at h2; exact absurd h2 (by norm_num)
    | some pv => rw [semverCompare_ns hu hv] at h1; exact absurd h1 (by norm_num)
  | some pu =>
    cases hw : parseCL w with
    | none => rw [semverCompare_sn hu hw]; norm_num
    | some pw =>
      cases hv : parseCL v with
      | none => rw [semverCompare_ns hv hw] at h2; exact absurd h2 (by norm_num)
      | some pv =>
        rw [semverCompare_ss hu hv] at h1
        rw [semverCompare_ss hv hw] at h2
        rw [semverCompare_ss hu hw]
        exact compareSemVer_trans_nonneg h1 h2

theorem semverCompare_trans_pos_left {u v w : GoStr}
    (h1 : 0 ≤ semverCompare u v) (h2 : 0 < semverCompare v w) :
    0 < semverCompare u w := by
  by_contra hc
  push_neg at hc
  have h3 : 0 ≤ semverCompare w u := by
    have := semverCompare_anti u w
    omega
  have h4 : 0 ≤ semverCompare w v := semverCompare_trans_nonneg h3 h1
  have := semverCompare_anti v w
  omega

theorem semverCompare_trans_pos_right {u v w : GoStr}
    (h1 : 0 < semverCompare u v) (h2 : 0 ≤ semverCompare v w) :
    0 < semverCompare u w := by
  by_contra hc
  push_neg at hc
  have h3 : 0 ≤ semverCompare w u := by
    have := semverCompare_anti u w
    omega
  have h4 : 0 ≤ semverCompare v u := semverCompare_trans_nonneg h2 h3
  have := semverCompare_anti u v
  omega

/-! ### Structure of parsed versions and `MajorMinor` -/

/-- The shape `parseInt` guarantees for each numeric component: nonempty, all
digits, and no leading zero unless the component is exactly "0". -/
def GoodNum (d : GoStr) : Prop :=
  d ≠ [] ∧ (∀ c ∈ d, isDigitC c = true) ∧ (d.headD ' ' = '0' → d = ['0'])

theorem goodNum_zero : GoodNum ['0'] := by
  refine ⟨by simp, ?_, fun _ => rfl⟩
  intro c hc
  simp only [List.mem_singleton] at hc
  subst hc
  decide

theorem takeWhile_all {p : Char → Bool} : ∀ {l : GoStr}, (∀ a ∈ l.takeWhile p, p a = true)
  | [] => by simp
  | c :: rest => by
    cases hc : p c with
    | false => simp [List.takeWhile, hc]
    | true =>
      simp only [List.takeWhile, hc]
      intro a ha
      rcases List.mem_cons.mp ha with rfl | ha
      · exact hc
      · exact takeWhile_all a ha

theorem takeWhile_append_all {p : Char → Bool} :
    ∀ {l r : GoStr}, (∀ a ∈ l, p a = true) →
      (∀ hd, r.head? = some hd → p hd = false) → (l ++ r).takeWhile p = l
  | [], r, _, hr => by
    cases r with
    | nil => rfl
    | cons hd tl => simp [List.takeWhile, hr hd rfl]
  | c :: rest, r, hl, hr => by
    simp only [List.cons_append, List.takeWhile, hl c (List.mem_cons_self c rest)]
    exact congrArg (c :: ·) (takeWhile_append_all (fun a ha => hl a (List.mem_cons_of_mem c ha)) hr)

theorem dropWhile_append_all {p : Char → Bool} :
    ∀ {l r : GoStr}, (∀ a ∈ l, p a = true) →
      (∀ hd, r.head? = some hd → p hd = false) → (l ++ r).dropWhile p = r
  | [], r, _, hr => by
    cases r with
    | nil => rfl
    | cons hd tl => simp [List.dropWhile, hr hd rfl]
  | c :: rest, r, hl, hr => by
    simp only [List.cons_append, List.dropWhile, hl c (List.mem_cons_self c rest)]
    exact dropWhile_append_all (fun a ha => hl a (List.mem_cons_of_mem c ha)) hr

/-- What `parseInt` returns is a well-formed digit run. -/
theorem parseIntCL_good {s d r : GoStr} (h : parseIntCL s = some (d, r)) : GoodNum d := by
  cases s with
  | nil => exact absurd h (by simp [parseIntCL])
  | cons c rest =>
    simp only [parseIntCL] at h
    by_cases hc : isDigitC c = true
    · rw [if_pos hc] at h
      by_cases hz : (decide (c = '0') && decide ((c :: rest.takeWhile isDigitC).length ≠ 1)) = true
      · rw [if_pos hz] at h; exact absurd h (by simp)
      · rw [if_neg hz] at h
        injection h with h1
        injection h1 with hd hr
        subst hd
        refine ⟨by simp, ?_, ?_⟩
        · intro a ha
          rcases List.mem_cons.mp ha with rfl | ha
          · exact hc
          · exact takeWhile_all a ha
        · intro h0
          simp only [List.headD_cons] at h0
          subst h0
          simp only [Bool.and_eq_true, decide_eq_true_eq, not_and, not_not] at hz
          have h1 := hz trivial
          have h2 : rest.takeWhile isDigitC = [] := by
            cases htw : rest.takeWhile isDigitC with
            | nil => rfl
            | cons x xs => rw [htw] at h1; simp at h1
          rw [h2]
    · rw [if_neg hc] at h; exact absurd h (by simp)

/-- `parseInt` on a well-formed digit run followed by a non-digit consumes
exactly the run. -/
theorem parseIntCL_append {d r : GoStr} (hd : GoodNum d)
    (hr : ∀ hd2, r.head? = some hd2 → isDigitC hd2 = false) :
    parseIntCL (d ++ r) = some (d, r) := by
  obtain ⟨hne, hdig, hzero⟩ := hd
  cases d with
  | nil => exact absurd rfl hne
  | cons c rest =>
    simp only [List.cons_append, parseIntCL]
    have hc : isDigitC c = true := hdig c (List.mem_cons_self c rest)
    rw [if_pos hc]
    have htw : (rest ++ r).takeWhile isDigitC = rest :=
      takeWhile_append_all (fun a ha => hdig a (List.mem_cons_of_mem c ha)) hr
    have hdw : (rest ++ r).dropWhile isDigitC = r :=
      dropWhile_append_all (fun a ha => hdig a (List.mem_cons_of_mem c ha)) hr
    rw [htw, hdw]
    by_cases hz : c = '0'
    · subst hz
      have hr0 : rest = [] := by
        have h1 := hzero (by simp)
        injection h1 with h2 h3
      subst hr0
      simp
    · simp [hz]

/-- Every parsed version has well-formed major and minor digit runs. -/
theorem parseCL_good {v : GoStr} {pv : SemVer} (h : parseCL v = some pv) :
    GoodNum pv.major ∧ GoodNum pv.minor := by
  unfold parseCL at h
  split at h
  · exact absurd h (by simp)
  split at h
  · exact absurd h (by simp)
  split at h
  · exact absurd h (by simp)
  rename_i hmaj
  split at h
  · injection h with h1
    subst h1
    exact ⟨parseIntCL_good hmaj, goodNum_zero⟩
  split at h
  · exact absurd h (by simp)
  split at h
  · exact absurd h (by simp)
  rename_i hmnr
  split at h
  · injection h with h1
    subst h1
    exact ⟨parseIntCL_good hmaj, parseIntCL_good hmnr⟩
  split at h
  · exact absurd h (by simp)
  split at h
  · exact absurd h (by simp)
  split at h
  · exact absurd h (by simp)
  split at h
  · injection h with h1
    subst h1
    exact ⟨parseIntCL_good hmaj, parseIntCL_good hmnr⟩
  split at h
  · injection h with h1
    subst h1
    exact ⟨parseIntCL_good hmaj, parseIntCL_good hmnr⟩
  · exact absurd h (by simp)

theorem semverMajorMinor_eq_of_parse {v : GoStr} {pv : SemVer} (h : parseCL v = some pv) :
    semverMajorMinor v = 'v' :: (pv.major ++ '.' :: pv.minor) := by
  unfold semverMajorMinor
  rw [h]

theorem semverMajorMinor_eq_of_invalid {v : GoStr} (h : parseCL v = none) :
    semverMajorMinor v = [] := by
  unfold semverMajorMinor
  rw [h]

/-- Parsing a reconstructed "vMAJOR.MINOR" string recovers exactly the major
and minor runs with defaulted patch and no prerelease. -/
theorem parse_vmm {maj mnr : GoStr} (hmaj : GoodNum maj) (hmnr : GoodNum mnr) :
    parseCL ('v' :: (maj ++ '.' :: mnr)) = some ⟨maj, mnr, ['0'], []⟩ := by
  have h1 : parseIntCL (maj ++ '.' :: mnr) = some (maj, '.' :: mnr) := by
    refine parseIntCL_append hmaj ?_
    intro hd2 hh
    injection hh with hh
    subst hh
    decide
  have h2 : parseIntCL (mnr ++ ([] : GoStr)) = some (mnr, []) := by
    refine parseIntCL_append hmnr ?_
    intro hd2 hh
    simp at hh
  rw [List.append_nil] at h2
  simp [parseCL, h1, h2]

/-- `parseCL` of the `semverMajorMinor` of a valid version. -/
theorem parseCL_mm {v : GoStr} {pv : SemVer} (h : parseCL v = some pv) :
    parseCL (semverMajorMinor v) = some ⟨pv.major, pv.minor, ['0'], []⟩ := by
  obtain ⟨hmaj, hmnr⟩ := parseCL_good h
  rw [semverMajorMinor_eq_of_parse h]
  exact parse_vmm hmaj hmnr

/-- Comparison of two reconstructed major.minor strings is decided by the
major and minor components alone. -/
theorem semverCompare_mm_eq {v w : GoStr} {pv pw : SemVer}
    (hv : parseCL v = some pv) (hw : parseCL w = some pw) :
    semverCompare (semverMajorMinor v) (semverMajorMinor w) =
      compareSemVer ⟨pv.major, pv.minor, ['0'], []⟩ ⟨pw.major, pw.minor, ['0'], []⟩ :=
  semverCompare_ss (parseCL_mm hv) (parseCL_mm hw)

theorem compareSemVer_eq_zero_iff {a b : SemVer} : compareSemVer a b = 0 ↔ a = b := by
  unfold compareSemVer
  split_ifs with h1 h2 h3
  · constructor
    · intro h; exact absurd h h1
    · rintro rfl; exact absurd (compareIntCL_self _) h1
  · constructor
    · intro h; exact absurd h h2
    · rintro rfl; exact absurd (compareIntCL_self _) h2
  · constructor
    · intro h; exact absurd h h3
    · rintro rfl; exact absurd (compareIntCL_self _) h3
  · have hM := compareIntCL_eq_zero_iff.mp (not_ne_iff.mp h1)
    have hm := compareIntCL_eq_zero_iff.mp (not_ne_iff.mp h2)
    have hp := compareIntCL_eq_zero_iff.mp (not_ne_iff.mp h3)
    rw [comparePrereleaseCL_eq_zero_iff]
    constructor
    · intro h
      obtain ⟨am, an, ap2, ar⟩ := a
      obtain ⟨bm, bn, bp, br⟩ := b
      simp_all
    · rintro rfl; rfl

/-- Splitting a string of the shape "RUN.REST" at the first dot is injective
when the runs contain no dot. -/
theorem append_dot_inj : ∀ {a b x y : GoStr}, (∀ c ∈ a, c ≠ '.') → (∀ c ∈ b, c ≠ '.') →
    a ++ '.' :: x = b ++ '.' :: y → a = b ∧ x = y
  | [], [], x, y, _, _, h => by
    simp only [List.nil_append] at h
    injection h with _ h2
    exact ⟨rfl, h2⟩
  | [], c :: bs, x, y, _, hd2, h => by
    simp only [List.nil_append, List.cons_append] at h
    injection h with h1 _
    exact absurd h1.symm (hd2 c (List.mem_cons_self c bs))
  | c :: as, [], x, y, hd1, _, h => by
    simp only [List.nil_append, List.cons_append] at h
    injection h with h1 _
    exact absurd h1 (hd1 c (List.mem_cons_self c as))
  | c :: as, d :: bs, x, y, hd1, hd2, h => by
    simp only [List.cons_append] at h
    injection h with h1 h2
    obtain ⟨ha, hx⟩ := append_dot_inj
      (fun e he => hd1 e (List.mem_cons_of_mem c he))
      (fun e he => hd2 e (List.mem_cons_of_mem d he)) h2
    exact ⟨by rw [h1, ha], hx⟩

/-- Equality test for major.minor series of valid versions: the comparison is
zero exactly when the reconstructed series strings coincide. -/
theorem semverCompare_mm_zero_iff {v w : GoStr} {pv pw : SemVer}
    (hv : parseCL v = some pv) (hw : parseCL w = some pw) :
    (semverCompare (semverMajorMinor v) (semverMajorMinor w) = 0 ↔
      semverMajorMinor v = semverMajorMinor w) := by
  rw [semverCompare_mm_eq hv hw, compareSemVer_eq_zero_iff]
  rw [semverMajorMinor_eq_of_parse hv, semverMajorMinor_eq_of_parse hw]
  constructor
  · intro h
    injection h with h1 h2 h3 h4
    rw [h1, h2]
  · intro h
    injection h with h0 h1
    obtain ⟨hmaj, _⟩ := parseCL_good hv
    obtain ⟨hmaj2, _⟩ := parseCL_good hw
    -- split "maj ++ '.' :: mnr" at the first dot: digit runs contain no dots
    have hsplit : pv.major = pw.major ∧ pv.minor = pw.minor := by
      have hd1 : ∀ c ∈ pv.major, c ≠ '.' := by
        intro c hc he
        have := hmaj.2.1 c hc
        subst he
        simp [isDigitC] at this
      have hd2 : ∀ c ∈ pw.major, c ≠ '.' := by
        intro c hc he
        have := hmaj2.2.1 c hc
        subst he
        simp [isDigitC] at this
      exact append_dot_inj hd1 hd2 h1
    rw [hsplit.1, hsplit.2]

theorem parseCL_nil : parseCL [] = none := rfl

/-- Comparison of full versions is monotone for the derived major.minor
strings. -/
theorem semverCompare_mm_mono {v w : GoStr} (h : 0 ≤ semverCompare v w) :
    0 ≤ semverCompare (semverMajorMinor v) (semverMajorMinor w) := by
  cases hv : parseCL v with
  | none =>
    cases hw : parseCL w with
    | none =>
      rw [semverMajorMinor_eq_of_invalid hv, semverMajorMinor_eq_of_invalid hw,
        semverCompare_self]
    | some pw =>
      rw [semverCompare_ns hv hw] at h
      exact absurd h (by norm_num)
  | some pv =>
    cases hw : parseCL w with
    | none =>
      rw [semverMajorMinor_eq_of_invalid hw,
        semverCompare_sn (parseCL_mm hv) parseCL_nil]
      norm_num
    | some pw =>
      rw [semverCompare_ss hv hw] at h
      rw [semverCompare_mm_eq hv hw]
      rw [compareSemVer_nonneg_iff] at h ⊢
      rcases h with h | ⟨e1, h⟩
      · exact Or.inl h
      · refine Or.inr ⟨e1, ?_⟩
        rcases h with h | ⟨e2, _⟩
        · exact Or.inl h
        · exact Or.inr ⟨e2, Or.inr ⟨rfl, by simp [comparePrereleaseCL]⟩⟩

/-- If x is at least y then comparing any t against x gives at most the
result of comparing t against y. -/
theorem semverCompare_compat {t x y : GoStr} (hxy : 0 ≤ semverCompare x y) :
    semverCompare t x ≤ semverCompare t y := by
  by_contra hcon
  push_neg at hcon
  rcases semverCompare_range t x with h1 | h1 | h1 <;>
    rcases semverCompare_range t y with h2 | h2 | h2 <;>
      try omega
  · -- c t x = 0, c t y = -1
    have hyt : 0 < semverCompare y t := by
      have := semverCompare_anti t y
      omega
    have hyx : 0 < semverCompare y x := semverCompare_trans_pos_right hyt (by omega)
    have := semverCompare_anti x y
    omega
  · -- c t x = 1, c t y = -1
    have hyt : 0 ≤ semverCompare y t := by
      have := semverCompare_anti t y
      omega
    have hyx : 0 < semverCompare y x := semverCompare_trans_pos_left hyt (by omega)
    have := semverCompare_anti x y
    omega
  · -- c t x = 1, c t y = 0
    have hyt : 0 ≤ semverCompare y t := by
      have := semverCompare_anti t y
      omega
    have hyx : 0 < semverCompare y x := semverCompare_trans_pos_left hyt (by omega)
    have := semverCompare_anti x y
    omega

/-- The Boolean relation used by `sortReleases` unfolds to a nonnegative
comparison of the tags. -/
theorem releaseRel_iff (a b : Release) :
    (Release.Less b a = false) ↔ 0 ≤ semverCompare a.TagName b.TagName := by
  unfold Release.Less
  rw [decide_eq_false_iff_not]
  have := semverCompare_anti a.TagName b.TagName
  constructor <;> intro h <;> omega

instance releaseRelTotal : IsTotal Release (fun a b => Release.Less b a = false) := by
  constructor
  intro a b
  rw [releaseRel_iff, releaseRel_iff]
  have := semverCompare_anti a.TagName b.TagName
  rcases semverCompare_range a.TagName b.TagName with h | h | h <;> omega

instance releaseRelTrans : IsTrans Release (fun a b => Release.Less b a = false) := by
  constructor
  intro a b c h1 h2
  rw [releaseRel_iff] at h1 h2 ⊢
  exact semverCompare_trans_nonneg h1 h2

theorem sortReleases_perm (rl : List Release) : (sortReleases rl).Perm rl :=
  List.perm_insertionSort _ _

theorem sortReleases_sorted (rl : List Release) :
    List.Pairwise (fun a b => 0 ≤ semverCompare a.TagName b.TagName) (sortReleases rl) := by
  have hs := List.sorted_insertionSort (fun a b : Release => Release.Less b a = false) rl
  exact hs.imp (fun h => (releaseRel_iff _ _).mp h)

/-! ### Behaviour of the alignment scans -/

/-- `alignScan` walks past a prefix of strictly newer series without setting
`start` or stopping. -/
theorem alignScan_skip {mm : GoStr} :
    ∀ (A : List Release) (rest : List Release) (i : Nat),
      (∀ a ∈ A, semverCompare mm (semverMajorMinor a.TagName) < 0) →
      alignScan mm none i (A ++ rest) = alignScan mm none (i + A.length) rest
  | [], rest, i, _ => by simp [alignScan]
  | a :: A, rest, i, h => by
    have ha := h a (List.mem_cons_self a A)
    simp only [List.cons_append, alignScan, List.append_eq]
    rw [if_neg (show ¬(True ∧ semverCompare mm (semverMajorMinor a.TagName) = 0) from by
      simp
      omega)]
    rw [if_neg (show ¬(0 < semverCompare mm (semverMajorMinor a.TagName)) from by omega)]
    have hidx : i + (a :: A).length = (i + 1) + A.length := by
      simp only [List.length_cons]
      omega
    rw [hidx]
    exact alignScan_skip A rest (i + 1) (fun x hx => h x (List.mem_cons_of_mem a hx))

/-- Once `start` is set, `alignScan` walks the rest of the matching block and
stops at the first strictly older candidate (or the end of the list). -/
theorem alignScan_block_set {mm : GoStr} :
    ∀ (B C : List Release) (i j : Nat),
      (∀ b ∈ B, semverCompare mm (semverMajorMinor b.TagName) = 0) →
      (∀ c ∈ C, 0 < semverCompare mm (semverMajorMinor c.TagName)) →
      alignScan mm (some j) i (B ++ C) = (some j, i + B.length)
  | [], [], i, j, _, _ => by simp [alignScan]
  | [], c :: C, i, j, _, hC => by
    have hc := hC c (List.mem_cons_self c C)
    simp only [List.nil_append, alignScan, List.length_nil]
    rw [if_neg (show ¬((some j : Option Nat) = none ∧
        semverCompare mm (semverMajorMinor c.TagName) = 0) from by simp)]
    rw [if_pos hc]
    simp
  | b :: B, C, i, j, hB, hC => by
    have hb := hB b (List.mem_cons_self b B)
    simp only [List.cons_append, alignScan, List.append_eq]
    rw [if_neg (show ¬((some j : Option Nat) = none ∧
        semverCompare mm (semverMajorMinor b.TagName) = 0) from by simp)]
    rw [if_neg (show ¬(0 < semverCompare mm (semverMajorMinor b.TagName)) from by omega)]
    have hidx : i + (b :: B).length = (i + 1) + B.length := by
      simp only [List.length_cons]
      omega
    rw [hidx]
    exact alignScan_block_set B C (i + 1) j (fun x hx => hB x (List.mem_cons_of_mem b hx)) hC

/-- Arriving at the matching block with `start` unset records the current
index as `start` and then completes the block walk. -/
theorem alignScan_block {mm : GoStr} (B C : List Release) (i : Nat)
    (hne : B ≠ [])
    (hB : ∀ b ∈ B, semverCompare mm (semverMajorMinor b.TagName) = 0)
    (hC : ∀ c ∈ C, 0 < semverCompare mm (semverMajorMinor c.TagName)) :
    alignScan mm none i (B ++ C) = (some i, i + B.length) := by
  cases B with
  | nil => exact absurd rfl hne
  | cons b B =>
    have hb := hB b (List.mem_cons_self b B)
    simp only [List.cons_append, alignScan, List.append_eq]
    rw [if_pos (show True ∧ semverCompare mm (semverMajorMinor b.TagName) = 0 from
      ⟨trivial, hb⟩)]
    rw [if_neg (show ¬(0 < semverCompare mm (semverMajorMinor b.TagName)) from by omega)]
    have hidx : i + (b :: B).length = (i + 1) + B.length := by
      simp only [List.length_cons]
      omega
    rw [hidx]
    exact alignScan_block_set B C (i + 1) i (fun x hx => hB x (List.mem_cons_of_mem b hx)) hC

/-- With no matching candidate anywhere, `start` is never set. -/
theorem alignScan_none {mm : GoStr} :
    ∀ (l : List Release) (i : Nat),
      (∀ c ∈ l, semverCompare mm (semverMajorMinor c.TagName) ≠ 0) →
      ∃ e, alignScan mm none i l = (none, e)
  | [], i, _ => ⟨i, by simp [alignScan]⟩
  | c :: l, i, h => by
    have hc := h c (List.mem_cons_self c l)
    simp only [alignScan]
    rw [if_neg (show ¬(True ∧ semverCompare mm (semverMajorMinor c.TagName) = 0) from by
      simp [hc])]
    by_cases hpos : 0 < semverCompare mm (semverMajorMinor c.TagName)
    · exact ⟨i, by rw [if_pos hpos]⟩
    · obtain ⟨e, he⟩ := alignScan_none l (i + 1) (fun x hx => h x (List.mem_cons_of_mem c hx))
      exact ⟨e, by rw [if_neg hpos]; exact he⟩

/-- `timeScan` walks past candidates not created strictly before the target. -/
theorem timeScan_skip {created : Int} :
    ∀ (P rest : List Release) (i : Nat),
      (∀ p ∈ P, ¬(created > p.Created)) →
      timeScan created i (P ++ rest) = timeScan created (i + P.length) rest
  | [], rest, i, _ => by simp [timeScan]
  | p :: P, rest, i, h => by
    have hp := h p (List.mem_cons_self p P)
    simp only [List.cons_append, timeScan, List.append_eq]
    rw [if_neg hp]
    have hidx : i + (p :: P).length = (i + 1) + P.length := by
      simp only [List.length_cons]
      omega
    rw [hidx]
    exact timeScan_skip P rest (i + 1) (fun x hx => h x (List.mem_cons_of_mem p hx))

theorem timeScan_none {created : Int} {l : List Release} (i : Nat)
    (h : ∀ p ∈ l, ¬(created > p.Created)) : timeScan created i l = none := by
  have h2 := timeScan_skip l [] i h
  rw [List.append_nil] at h2
  rw [h2]
  rfl

theorem timeScan_hit {created : Int} {b : Release} (rest : List Release) (i : Nat)
    (h : created > b.Created) : timeScan created i (b :: rest) = some i := by
  simp [timeScan, h]

/-- Splitting a list at the first element satisfying a decidable predicate. -/
theorem first_split {p : Release → Prop} [DecidablePred p] :
    ∀ {l : List Release}, (∃ x ∈ l, p x) →
      ∃ P x rest, l = P ++ x :: rest ∧ (∀ y ∈ P, ¬p y) ∧ p x
  | [], h => absurd h (by simp)
  | a :: l, h => by
    by_cases ha : p a
    · exact ⟨[], a, l, rfl, by simp, ha⟩
    · have h2 : ∃ x ∈ l, p x := by
        obtain ⟨x, hx, hpx⟩ := h
        rcases List.mem_cons.mp hx with rfl | hx
        · exact absurd hpx ha
        · exact ⟨x, hx, hpx⟩
      obtain ⟨P, x, rest, heq, hP, hpx⟩ := first_split h2
      exact ⟨a :: P, x, rest, by rw [heq]; rfl,
        fun y hy => by
          rcases List.mem_cons.mp hy with rfl | hy
          · exact ha
          · exact hP y hy, hpx⟩

theorem getElem?_append_length {b0 : Release} :
    ∀ (P rest : List Release), (P ++ b0 :: rest)[P.length]? = some b0
  | [], rest => by simp
  | p :: P, rest => by
    simp only [List.cons_append, List.length_cons, List.getElem?_cons_succ]
    exact getElem?_append_length P rest

/-- A full-version-sorted candidate list splits into a newer-series prefix, a
matching-series block, and an older-series tail, for any fixed series
string. -/
theorem tripartition (mmT : GoStr) :
    ∀ {l : List Release},
      List.Pairwise (fun a b => 0 ≤ semverCompare a.TagName b.TagName) l →
      ∃ A B C, l = A ++ B ++ C ∧
        (∀ a ∈ A, semverCompare mmT (semverMajorMinor a.TagName) < 0) ∧
        (∀ b ∈ B, semverCompare mmT (semverMajorMinor b.TagName) = 0) ∧
        (∀ c ∈ C, 0 < semverCompare mmT (semverMajorMinor c.TagName))
  | [], _ => ⟨[], [], [], rfl, by simp, by simp, by simp⟩
  | x :: l, hp => by
    obtain ⟨hx, hptail⟩ := List.pairwise_cons.mp hp
    obtain ⟨A, B, C, heq, hA, hB, hC⟩ := tripartition mmT hptail
    have hmono : ∀ y ∈ l, semverCompare mmT (semverMajorMinor x.TagName) ≤
        semverCompare mmT (semverMajorMinor y.TagName) := by
      intro y hy
      exact semverCompare_compat (semverCompare_mm_mono (hx y hy))
    rcases semverCompare_range mmT (semverMajorMinor x.TagName) with hs | hs | hs
    · refine ⟨x :: A, B, C, by rw [heq]; rfl, ?_, hB, hC⟩
      intro a ha
      rcases List.mem_cons.mp ha with rfl | ha
      · omega
      · exact hA a ha
    · have hAnil : A = [] := by
        cases hAe : A with
        | nil => rfl
        | cons a as =>
          have hmem : a ∈ l := by
            rw [heq, hAe]
            simp
          have h1 := hmono a hmem
          have h2 := hA a (by rw [hAe]; exact List.mem_cons_self a as)
          omega
      subst hAnil
      refine ⟨[], x :: B, C, by rw [heq]; rfl, by simp, ?_, hC⟩
      intro b hb
      rcases List.mem_cons.mp hb with rfl | hb
      · exact hs
      · exact hB b hb
    · have hAnil : A = [] := by
        cases hAe : A with
        | nil => rfl
        | cons a as =>
          have hmem : a ∈ l := by
            rw [heq, hAe]
            simp
          have h1 := hmono a hmem
          have h2 := hA a (by rw [hAe]; exact List.mem_cons_self a as)
          omega
      subst hAnil
      have hBnil : B = [] := by
        cases hBe : B with
        | nil => rfl
        | cons b bs =>
          have hmem : b ∈ l := by
            rw [heq, hBe]
            simp
          have h1 := hmono b hmem
          have h2 := hB b (by rw [hBe]; exact List.mem_cons_self b bs)
          omega
      subst hBnil
      refine ⟨[], [], x :: C, by rw [heq]; rfl, by simp, by simp, ?_⟩
      intro c hc
      rcases List.mem_cons.mp hc with rfl | hc
      · omega
      · exact hC c hc

/-- `alignSorted` when the scan found a block. -/
theorem alignSorted_eq_block (mm : GoStr) (created : Int) (candidates : List Release)
    (s e : Nat) (hscan : alignScan mm none 0 candidates = (some s, e)) :
    alignSorted mm created candidates =
      ((candidates.drop s).take (e - s))[(timeScan created 0
        ((candidates.drop s).take (e - s))).getD
          (((candidates.drop s).take (e - s)).length - 1)]? := by
  unfold alignSorted
  rw [hscan]

/-- `alignSorted` when the scan never found the series: the Go code panics
slicing `candidates[-1:end]`; the model returns `none`. -/
theorem alignSorted_eq_none (mm : GoStr) (created : Int) (candidates : List Release)
    (e : Nat) (hscan : alignScan mm none 0 candidates = (none, e)) :
    alignSorted mm created candidates = none := by
  unfold alignSorted
  rw [hscan]

/-- For valid tags, the scan's comparison of series strings is an equality
test on the series strings themselves. -/
theorem comp_zero_iff_mm {r d : Release} {pr pd : SemVer}
    (hr : parseCL r.TagName = some pr) (hd : parseCL d.TagName = some pd) :
    (semverCompare (semverMajorMinor r.TagName) (semverMajorMinor d.TagName) = 0 ↔
      semverMajorMinor d.TagName = semverMajorMinor r.TagName) := by
  rw [semverCompare_mm_zero_iff hr hd]
  exact eq_comm

/-- Full characterization of the alignment choice for a target with valid
tag, valid candidate tags, and at least one candidate in the target's series:
the chosen release is in the series; when some in-series candidate was
created strictly before the target, the choice is created strictly before the
target and is version-maximal among such candidates; otherwise it is
version-minimal in the series. -/
theorem align_spec (r : Release) (cands : List Release)
    (hr : semverIsValid r.TagName = true)
    (hv : ∀ c ∈ cands, semverIsValid c.TagName = true)
    (hm : ∃ c ∈ cands, semverMajorMinor c.TagName = semverMajorMinor r.TagName) :
    ∃ ch, align r cands = some ch ∧ ch ∈ cands ∧
      semverMajorMinor ch.TagName = semverMajorMinor r.TagName ∧
      ((∃ d ∈ cands, semverMajorMinor d.TagName = semverMajorMinor r.TagName ∧
          d.Created < r.Created) →
        ch.Created < r.Created ∧
          ∀ d ∈ cands, semverMajorMinor d.TagName = semverMajorMinor r.TagName →
            d.Created < r.Created → semverCompare d.TagName ch.TagName ≤ 0) ∧
      ((∀ d ∈ cands, semverMajorMinor d.TagName = semverMajorMinor r.TagName →
          ¬(d.Created < r.Created)) →
        ∀ d ∈ cands, semverMajorMinor d.TagName = semverMajorMinor r.TagName →
          semverCompare ch.TagName d.TagName ≤ 0) := by
  obtain ⟨pr, hpr⟩ : ∃ p, parseCL r.TagName = some p := Option.isSome_iff_exists.mp hr
  have hperm := sortReleases_perm cands
  have hpair := sortReleases_sorted cands
  have hvs : ∀ c ∈ sortReleases cands, ∃ pc, parseCL c.TagName = some pc := by
    intro c hc
    exact Option.isSome_iff_exists.mp (hv c (hperm.mem_iff.mp hc))
  have hiff : ∀ c ∈ sortReleases cands,
      (semverCompare (semverMajorMinor r.TagName) (semverMajorMinor c.TagName) = 0 ↔
        semverMajorMinor c.TagName = semverMajorMinor r.TagName) := by
    intro c hc
    obtain ⟨pc, hpc⟩ := hvs c hc
    exact comp_zero_iff_mm hpr hpc
  obtain ⟨A, B, C, heq, hA, hB, hC⟩ := tripartition (semverMajorMinor r.TagName) hpair
  obtain ⟨c0, hc0mem, hc0mm⟩ := hm
  have hc0sorted : c0 ∈ sortReleases cands := hperm.mem_iff.mpr hc0mem
  have hc0comp := (hiff c0 hc0sorted).mpr hc0mm
  have hc0B : c0 ∈ B := by
    rw [heq] at hc0sorted
    rcases List.mem_append.mp hc0sorted with h1 | h1
    · rcases List.mem_append.mp h1 with h2 | h2
      · have := hA c0 h2
        omega
      · exact h2
    · have := hC c0 h1
      omega
  have hBne : B ≠ [] := fun h => by
    rw [h] at hc0B
    exact absurd hc0B (List.not_mem_nil c0)
  have hBiff : ∀ d, d ∈ B ↔ (d ∈ sortReleases cands ∧
      semverMajorMinor d.TagName = semverMajorMinor r.TagName) := by
    intro d
    constructor
    · intro hd
      have hds : d ∈ sortReleases cands := by
        rw [heq]
        exact List.mem_append.mpr (Or.inl (List.mem_append.mpr (Or.inr hd)))
      exact ⟨hds, (hiff d hds).mp (hB d hd)⟩
    · rintro ⟨hds, hdm⟩
      have hcomp := (hiff d hds).mpr hdm
      rw [heq] at hds
      rcases List.mem_append.mp hds with h1 | h1
      · rcases List.mem_append.mp h1 with h2 | h2
        · have := hA d h2
          omega
        · exact h2
      · have := hC d h1
        omega
  have hscan : alignScan (semverMajorMinor r.TagName) none 0 (sortReleases cands) =
      (some A.length, A.length + B.length) := by
    rw [heq, List.append_assoc, alignScan_skip A (B ++ C) 0 hA, Nat.zero_add]
    exact alignScan_block B C A.length hBne hB hC
  have hblock : ((sortReleases cands).drop A.length).take (A.length + B.length - A.length)
      = B := by
    have he : A.length + B.length - A.length = B.length := by omega
    rw [he, heq, List.append_assoc, List.drop_left, List.take_left]
  have halign : align r cands =
      B[(timeScan r.Created 0 B).getD (B.length - 1)]? := by
    unfold align
    rw [alignSorted_eq_block (semverMajorMinor r.TagName) r.Created (sortReleases cands)
      A.length (A.length + B.length) hscan, hblock]
  by_cases hex : ∃ b ∈ B, b.Created < r.Created
  · -- some in-series candidate was created strictly before the target
    obtain ⟨P, b0, rest, hBeq, hP, hb0⟩ := first_split (p := fun b => b.Created < r.Created) hex
    have htime : timeScan r.Created 0 B = some P.length := by
      rw [hBeq, timeScan_skip P (b0 :: rest) 0 hP, timeScan_hit rest (0 + P.length) hb0]
      simp
    have hchosen : B[(timeScan r.Created 0 B).getD (B.length - 1)]? = some b0 := by
      rw [htime]
      show B[P.length]? = some b0
      rw [hBeq]
      exact getElem?_append_length P rest
    have hb0B : b0 ∈ B := by
      rw [hBeq]
      exact List.mem_append.mpr (Or.inr (List.mem_cons_self b0 rest))
    have hb0sorted : b0 ∈ sortReleases cands := ((hBiff b0).mp hb0B).1
    have hb0mm := ((hBiff b0).mp hb0B).2
    refine ⟨b0, by rw [halign]; exact hchosen, hperm.mem_iff.mp hb0sorted, hb0mm, ?_, ?_⟩
    · intro _
      refine ⟨hb0, ?_⟩
      intro d hd hdm hdc
      have hdB : d ∈ B := (hBiff d).mpr ⟨hperm.mem_iff.mpr hd, hdm⟩
      rw [hBeq] at hdB
      rcases List.mem_append.mp hdB with h1 | h1
      · exact absurd hdc (hP d h1)
      · rcases List.mem_cons.mp h1 with rfl | h1
        · rw [semverCompare_self]
        · -- d occurs after b0 in the sorted list
          have hre : sortReleases cands = (A ++ P) ++ b0 :: (rest ++ C) := by
            rw [heq, hBeq]
            simp [List.append_assoc]
          have hpair2 := hpair
          rw [hre] at hpair2
          have hb0d := (List.pairwise_cons.mp (List.pairwise_append.mp hpair2).2.1).1 d
            (List.mem_append.mpr (Or.inl h1))
          have := semverCompare_anti d.TagName b0.TagName
          omega
    · intro hall
      exact fun d _ _ => ((hall b0 (hperm.mem_iff.mp hb0sorted) hb0mm) hb0).elim
  · -- no in-series candidate predates the target: oldest of the block
    have hex2 : ∀ b ∈ B, ¬(b.Created < r.Created) := fun b hb hc => hex ⟨b, hb, hc⟩
    have htime : timeScan r.Created 0 B = none := timeScan_none 0 hex2
    rcases List.eq_nil_or_concat B with hBnil | ⟨Q, bl, hBeq⟩
    · exact absurd hBnil hBne
    rw [List.concat_eq_append] at hBeq
    have hchosen : B[(timeScan r.Created 0 B).getD (B.length - 1)]? = some bl := by
      rw [htime]
      show B[B.length - 1]? = some bl
      have hlen : B.length - 1 = Q.length := by
        rw [hBeq]
        simp
      rw [hlen, hBeq]
      exact getElem?_append_length Q []
    have hblB : bl ∈ B := by
      rw [hBeq]
      exact List.mem_append.mpr (Or.inr (List.mem_cons_self bl []))
    have hblsorted : bl ∈ sortReleases cands := ((hBiff bl).mp hblB).1
    have hblmm := ((hBiff bl).mp hblB).2
    refine ⟨bl, by rw [halign]; exact hchosen, hperm.mem_iff.mp hblsorted, hblmm, ?_, ?_⟩
    · rintro ⟨d, hd, hdm, hdc⟩
      have hdB : d ∈ B := (hBiff d).mpr ⟨hperm.mem_iff.mpr hd, hdm⟩
      exact absurd hdc (hex2 d hdB)
    · intro _ d hd hdm
      have hdB : d ∈ B := (hBiff d).mpr ⟨hperm.mem_iff.mpr hd, hdm⟩
      rw [hBeq] at hdB
      rcases List.mem_append.mp hdB with h1 | h1
      · -- d occurs before bl in the sorted list
        have hre : sortReleases cands = (A ++ Q) ++ bl :: C := by
          rw [heq, hBeq]
          simp [List.append_assoc]
        have hpair2 := hpair
        rw [hre] at hpair2
        have hdbl := (List.pairwise_append.mp hpair2).2.2 d
          (List.mem_append.mpr (Or.inr h1)) bl (List.mem_cons_self bl C)
        have := semverCompare_anti d.TagName bl.TagName
        omega
      · rcases List.mem_cons.mp h1 with rfl | h1
        · rw [semverCompare_self]
        · exact absurd h1 (List.not_mem_nil d)

/-- When no candidate's series compares equal to the target's, the scan never
sets `start` and the Go code panics slicing `candidates[-1:end]`; the model
returns `none`. -/
theorem align_no_series (r : Release) (cands : List Release)
    (h : ∀ c ∈ cands, semverCompare (semverMajorMinor r.TagName)
      (semverMajorMinor c.TagName) ≠ 0) :
    align r cands = none := by
  have hs : ∀ c ∈ sortReleases cands,
      semverCompare (semverMajorMinor r.TagName) (semverMajorMinor c.TagName) ≠ 0 :=
    fun c hc => h c ((sortReleases_perm cands).mem_iff.mp hc)
  obtain ⟨e, he⟩ := alignScan_none (sortReleases cands) 0 hs
  unfold align
  exact alignSorted_eq_none _ _ _ e he

/-! ### The minor-series window of `LastN` -/

/-- Walks a list of series strings collapsing runs equal to the previous
series: the tail of the consecutive deduplication. -/
def cdedupTail (prev : GoStr) : List GoStr → List GoStr
  | [] => []
  | b :: l => if b = prev then cdedupTail prev l else b :: cdedupTail b l

/-- Consecutive deduplication: the distinct series of a sorted release list
in order of appearance. -/
def cdedup : List GoStr → List GoStr
  | [] => []
  | a :: l => a :: cdedupTail a l

/-- The distinct major.minor series of a release collection, newest first. -/
def seriesList (rl : List Release) : List GoStr :=
  cdedup ((sortReleases rl).map (fun x => semverMajorMinor x.TagName))

/-- A string that is the major.minor series of some valid version. -/
def IsSeries (s : GoStr) : Prop :=
  ∃ v pv, parseCL v = some pv ∧ s = semverMajorMinor v

theorem series_zero_iff {s t : GoStr} (hs : IsSeries s) (ht : IsSeries t) :
    semverCompare s t = 0 ↔ s = t := by
  obtain ⟨v, pv, hv, rfl⟩ := hs
  obtain ⟨w, pw, hw, rfl⟩ := ht
  exact semverCompare_mm_zero_iff hv hw

theorem series_pos_of_ne {s t : GoStr} (hs : IsSeries s) (ht : IsSeries t)
    (hle : 0 ≤ semverCompare s t) (hne : s ≠ t) : 0 < semverCompare s t := by
  rcases lt_or_eq_of_le hle with h | h
  · exact h
  · exact absurd ((series_zero_iff hs ht).mp h.symm) hne

/-- Every element of a series-string list appears in its consecutive
deduplication. -/
theorem mem_cdedupTail :
    ∀ {l : List GoStr} (prev : GoStr), ∀ x ∈ l, x ∈ prev :: cdedupTail prev l
  | [], _, x, hx => absurd hx (List.not_mem_nil x)
  | b :: l, prev, x, hx => by
    simp only [cdedupTail]
    by_cases hb : b = prev
    · rw [if_pos hb]
      rcases List.mem_cons.mp hx with rfl | hx
      · rw [hb]
        exact List.mem_cons_self prev _
      · exact mem_cdedupTail prev x hx
    · rw [if_neg hb]
      rcases List.mem_cons.mp hx with rfl | hx
      · exact List.mem_cons_of_mem prev (List.mem_cons_self x _)
      · rcases List.mem_cons.mp (mem_cdedupTail b x hx) with rfl | h2
        · exact List.mem_cons_of_mem prev (List.mem_cons_self x _)
        · exact List.mem_cons_of_mem prev (List.mem_cons_of_mem b h2)

/-- The consecutive deduplication of a weakly descending list of series
strings is strictly descending: this is what makes "the N most recent
distinct series" well defined. -/
theorem cdedupTail_chain :
    ∀ {l : List GoStr} {prev : GoStr},
      List.Pairwise (fun a b => 0 ≤ semverCompare a b) (prev :: l) →
      (∀ s ∈ prev :: l, IsSeries s) →
      List.Chain' (fun a b => 0 < semverCompare a b) (prev :: cdedupTail prev l)
  | [], prev, _, _ => by simp [cdedupTail]
  | b :: l, prev, hpair, hser => by
    obtain ⟨hhead, htail⟩ := List.pairwise_cons.mp hpair
    simp only [cdedupTail]
    by_cases hb : b = prev
    · rw [if_pos hb]
      refine cdedupTail_chain (List.pairwise_cons.mpr ⟨?_, (List.pairwise_cons.mp htail).2⟩) ?_
      · intro s hs
        exact hhead s (List.mem_cons_of_mem b hs)
      · intro s hs
        rcases List.mem_cons.mp hs with rfl | hs
        · exact hser s (List.mem_cons_self s _)
        · exact hser s (List.mem_cons_of_mem prev (List.mem_cons_of_mem b hs))
    · rw [if_neg hb]
      rw [List.chain'_cons]
      constructor
      · exact series_pos_of_ne (hser prev (List.mem_cons_self prev _))
          (hser b (List.mem_cons_of_mem prev (List.mem_cons_self b l)))
          (hhead b (List.mem_cons_self b l)) (fun h => hb h.symm)
      · refine cdedupTail_chain htail ?_
        intro s hs
        exact hser s (List.mem_cons_of_mem prev hs)

/-- In a weakly descending series sequence headed by `prev`, once the series
changes away from `prev` no later element returns to `prev`. -/
theorem series_not_prev {prev : GoStr} {x : Release} {l : List Release}
    (hpair : List.Pairwise (fun a b => 0 ≤ semverCompare a b)
      (prev :: (x :: l).map (fun y => semverMajorMinor y.TagName)))
    (hser : ∀ s ∈ prev :: (x :: l).map (fun y => semverMajorMinor y.TagName), IsSeries s)
    (hxp : semverMajorMinor x.TagName ≠ prev) :
    ∀ y ∈ x :: l, semverMajorMinor y.TagName ≠ prev := by
  obtain ⟨hhead, htail⟩ := List.pairwise_cons.mp hpair
  have hpx : 0 < semverCompare prev (semverMajorMinor x.TagName) :=
    series_pos_of_ne (hser prev (List.mem_cons_self prev _))
      (hser _ (List.mem_cons_of_mem prev (by simp)))
      (hhead _ (by simp)) (fun h => hxp h.symm)
  intro y hy
  rcases List.mem_cons.mp hy with rfl | hy
  · exact hxp
  · have hxy : 0 ≤ semverCompare (semverMajorMinor x.TagName)
        (semverMajorMinor y.TagName) := by
      have := (List.pairwise_cons.mp htail).1 (semverMajorMinor y.TagName)
        (List.mem_map_of_mem (fun z => semverMajorMinor z.TagName) hy)
      exact this
    have hpy : 0 < semverCompare prev (semverMajorMinor y.TagName) :=
      semverCompare_trans_pos_right hpx hxy
    intro he
    rw [he, semverCompare_self] at hpy
    exact absurd hpy (by norm_num)

/-- The `LastN` walk keeps exactly the releases whose series lies among the
current series and the first `m - 1` later distinct series. -/
theorem lastNTake_spec :
    ∀ (l : List Release) (prev : GoStr) (m : Int), 1 ≤ m →
      List.Pairwise (fun a b => 0 ≤ semverCompare a b)
        (prev :: l.map (fun y => semverMajorMinor y.TagName)) →
      (∀ s ∈ prev :: l.map (fun y => semverMajorMinor y.TagName), IsSeries s) →
      lastNTake prev m l = l.filter (fun x => semverMajorMinor x.TagName ∈
        prev :: (cdedupTail prev (l.map (fun y => semverMajorMinor y.TagName))).take
          (m - 1).toNat)
  | [], prev, m, _, _, _ => by simp [lastNTake]
  | x :: l, prev, m, hm, hpair, hser => by
    obtain ⟨hhead, htail⟩ := List.pairwise_cons.mp hpair
    by_cases hxp : semverMajorMinor x.TagName = prev
    · -- same series: keep the element, the allowed set is unchanged
      simp only [lastNTake, List.map_cons, cdedupTail]
      rw [if_pos hxp, if_pos hxp]
      rw [List.filter_cons_of_pos (by simp [hxp])]
      refine congrArg (x :: ·) ?_
      refine lastNTake_spec l prev m hm ?_ ?_
      · refine List.pairwise_cons.mpr ⟨?_, (List.pairwise_cons.mp htail).2⟩
        intro s hs
        exact hhead s (List.mem_cons_of_mem _ hs)
      · intro s hs
        rcases List.mem_cons.mp hs with rfl | hs
        · exact hser s (List.mem_cons_self s _)
        · exact hser s (List.mem_cons_of_mem prev (List.mem_cons_of_mem _ hs))
    · -- the series changes at `x`
      have hnp := series_not_prev hpair hser hxp
      simp only [lastNTake, List.map_cons, cdedupTail]
      rw [if_neg hxp, if_neg hxp]
      by_cases hz : m - 1 = 0
      · -- the change exhausts the count: truncate before `x`
        rw [if_pos hz]
        have h0 : (m - 1).toNat = 0 := by omega
        rw [h0, List.take_zero]
        symm
        rw [List.filter_eq_nil_iff]
        intro y hy
        simp only [List.mem_singleton, decide_eq_true_eq]
        exact hnp y hy
      · -- keep `x`, one fewer series remains
        rw [if_neg hz]
        have hk : (m - 1).toNat = (m - 2).toNat + 1 := by omega
        rw [hk, List.take_succ_cons]
        rw [List.filter_cons_of_pos (by simp)]
        refine congrArg (x :: ·) ?_
        have hih := lastNTake_spec l (semverMajorMinor x.TagName) (m - 1) (by omega)
          htail (fun s hs => hser s (List.mem_cons_of_mem prev hs))
        have hidx : m - 1 - 1 = m - 2 := by omega
        rw [hidx] at hih
        rw [hih]
        refine List.filter_congr ?_
        intro y hy
        have hyne := hnp y (List.mem_cons_of_mem x hy)
        simp only [List.mem_cons, decide_eq_true_eq, hyne, false_or]

/-- A non-positive count can never trigger the stop condition: `minors - 1`
is already negative, so the `minors == 0` test never fires. -/
theorem lastNTake_nonpos :
    ∀ (l : List Release) (prev : GoStr) (m : Int), m ≤ 0 → lastNTake prev m l = l
  | [], _, _, _ => rfl
  | x :: l, prev, m, hm => by
    simp only [lastNTake]
    by_cases hxp : semverMajorMinor x.TagName = prev
    · rw [if_pos hxp]
      exact congrArg (x :: ·) (lastNTake_nonpos l prev m hm)
    · rw [if_neg hxp, if_neg (by omega)]
      exact congrArg (x :: ·) (lastNTake_nonpos l _ (m - 1) (by omega))

theorem sortReleases_ne_nil {rl : List Release} (hne : rl ≠ []) :
    sortReleases rl ≠ [] := by
  intro h
  have hperm := sortReleases_perm rl
  rw [h] at hperm
  exact hne hperm.symm.eq_nil

/-- The full window characterization of `LastN` for a positive count and a
non-empty collection of valid tags. -/
theorem lastN_window (n : Int) (rl : List Release) (hn : 0 < n) (hne : rl ≠ [])
    (hv : ∀ x ∈ rl, semverIsValid x.TagName = true) :
    ∃ out, LastN n rl = some out ∧
      List.Pairwise (fun a b => 0 ≤ semverCompare a.TagName b.TagName) out ∧
      out.Perm (rl.filter (fun x => semverMajorMinor x.TagName ∈
        (seriesList rl).take n.toNat)) ∧
      List.Chain' (fun a b => 0 < semverCompare a b) (seriesList rl) ∧
      ((seriesList rl).length ≤ n.toNat → out.Perm rl) := by
  have hperm := sortReleases_perm rl
  have hpair := sortReleases_sorted rl
  cases hs : sortReleases rl with
  | nil => exact absurd hs (sortReleases_ne_nil hne)
  | cons r0 rest =>
    rw [hs] at hpair hperm
    have hmapPair : List.Pairwise (fun a b => 0 ≤ semverCompare a b)
        (semverMajorMinor r0.TagName ::
          rest.map (fun y => semverMajorMinor y.TagName)) := by
      have h2 : List.Pairwise (fun a b => 0 ≤ semverCompare a b)
          ((r0 :: rest).map (fun y => semverMajorMinor y.TagName)) := by
        rw [List.pairwise_map]
        exact hpair.imp (fun h => semverCompare_mm_mono h)
      rw [List.map_cons] at h2
      exact h2
    have hserAll : ∀ s ∈ semverMajorMinor r0.TagName ::
        rest.map (fun y => semverMajorMinor y.TagName), IsSeries s := by
      intro s hs2
      rcases List.mem_cons.mp hs2 with rfl | hs2
      · obtain ⟨p0, hp0⟩ := Option.isSome_iff_exists.mp
          (hv r0 (hperm.mem_iff.mp (List.mem_cons_self r0 rest)))
        exact ⟨r0.TagName, p0, hp0, rfl⟩
      · obtain ⟨y, hy, rfl⟩ := List.mem_map.mp hs2
        obtain ⟨py, hpy⟩ := Option.isSome_iff_exists.mp
          (hv y (hperm.mem_iff.mp (List.mem_cons_of_mem r0 hy)))
        exact ⟨y.TagName, py, hpy, rfl⟩
    have hspec := lastNTake_spec rest (semverMajorMinor r0.TagName) n (by omega)
      hmapPair hserAll
    have hlast : LastN n rl =
        some (r0 :: lastNTake (semverMajorMinor r0.TagName) n rest) := by
      unfold LastN
      rw [hs]
    have hSL : seriesList rl = semverMajorMinor r0.TagName ::
        cdedupTail (semverMajorMinor r0.TagName)
          (rest.map (fun y => semverMajorMinor y.TagName)) := by
      unfold seriesList
      rw [hs, List.map_cons]
      rfl
    have htake : (seriesList rl).take n.toNat = semverMajorMinor r0.TagName ::
        (cdedupTail (semverMajorMinor r0.TagName)
          (rest.map (fun y => semverMajorMinor y.TagName))).take (n - 1).toNat := by
      rw [hSL]
      have hnn : n.toNat = (n - 1).toNat + 1 := by omega
      rw [hnn, List.take_succ_cons]
    have hout : r0 :: lastNTake (semverMajorMinor r0.TagName) n rest =
        (r0 :: rest).filter (fun x => semverMajorMinor x.TagName ∈
          (seriesList rl).take n.toNat) := by
      rw [htake, List.filter_cons_of_pos (by simp)]
      exact congrArg (r0 :: ·) hspec
    refine ⟨_, hlast, ?_, ?_, ?_, ?_⟩
    · rw [hout]
      exact hpair.sublist (List.filter_sublist _)
    · rw [hout]
      exact List.Perm.filter _ hperm
    · rw [hSL]
      exact cdedupTail_chain hmapPair hserAll
    · intro hlen
      rw [hout]
      have hall : ∀ x ∈ r0 :: rest,
          semverMajorMinor x.TagName ∈ (seriesList rl).take n.toNat := by
        intro x hx
        rw [List.take_of_length_le hlen, hSL]
        rcases List.mem_cons.mp hx with rfl | hx
        · exact List.mem_cons_self _ _
        · exact mem_cdedupTail _ _
            (List.mem_map_of_mem (fun y => semverMajorMinor y.TagName) hx)
      rw [List.filter_eq_self.mpr (fun a ha => by simp [hall a ha])]
      exact hperm

/-- `LastN` with a non-positive count sorts and returns everything. -/
theorem lastN_nonpos (n : Int) (rl : List Release) (hn : n ≤ 0) (hne : rl ≠ []) :
    LastN n rl = some (sortReleases rl) := by
  cases hs : sortReleases rl with
  | nil => exact absurd hs (sortReleases_ne_nil hne)
  | cons r0 rest =>
    unfold LastN
    rw [hs]
    show some (r0 :: lastNTake (semverMajorMinor r0.TagName) n rest) = some (r0 :: rest)
    rw [lastNTake_nonpos rest _ n hn]

/-! ### The observable effect of `HandleRelease` on the release map -/

/-- Entry-wise relation between the release map before and after a call:
same keys in the same order, each value a permutation of the old value. -/
def MapPerm (m1 m2 : ReleaseMap) : Prop :=
  List.Forall₂ (fun kv kv2 => kv.1 = kv2.1 ∧ kv.2.Perm kv2.2) m1 m2

theorem mapPerm_refl (m : ReleaseMap) : MapPerm m m :=
  List.forall₂_same.mpr (fun _ _ => ⟨rfl, List.Perm.refl _⟩)

theorem mapPerm_trans : ∀ {m1 m2 m3 : ReleaseMap},
    MapPerm m1 m2 → MapPerm m2 m3 → MapPerm m1 m3 := by
  intro m1 m2 m3 h1
  induction h1 generalizing m3 with
  | nil =>
    intro h2
    cases h2
    exact List.Forall₂.nil
  | cons hr htail ih =>
    intro h2
    cases h2 with
    | cons hr2 htail2 =>
      exact List.Forall₂.cons ⟨hr.1.trans hr2.1, hr.2.trans hr2.2⟩ (ih htail2)

/-- Sorting one entry of the map in place preserves keys and element sets. -/
theorem updateMap_sortPerm : ∀ (m : ReleaseMap) (k : GoStr),
    MapPerm m (updateMap m k (sortReleases (lookupMap m k)))
  | [], _ => List.Forall₂.nil
  | kv :: rest, k => by
    simp only [updateMap, lookupMap]
    by_cases hk : kv.1 = k
    · rw [if_pos hk, if_pos hk]
      exact List.Forall₂.cons ⟨rfl, (sortReleases_perm kv.2).symm⟩ (mapPerm_refl rest)
    · rw [if_neg hk, if_neg hk]
      exact List.Forall₂.cons ⟨rfl, List.Perm.refl _⟩ (updateMap_sortPerm rest k)

/-- Each iteration of the dependency loop only replaces one source's slice by
its sorted permutation; over the whole loop the map keeps its keys and, per
key, the same releases up to order. -/
theorem handleReleaseLoop_mapPerm (mm : GoStr) (created : Int) :
    ∀ (srcs : List Source) (assets : List Asset) (m : ReleaseMap),
      MapPerm m (handleReleaseLoop mm created srcs assets m).2
  | [], _, m => mapPerm_refl m
  | src :: rest, assets, m => by
    simp only [handleReleaseLoop]
    have h1 := updateMap_sortPerm m src.id
    cases halign : alignSorted mm created (sortReleases (lookupMap m src.id)) with
    | none => exact h1
    | some candidate =>
      exact mapPerm_trans h1 (handleReleaseLoop_mapPerm mm created rest _ _)

theorem HandleRelease_snd (p : Package) (r : Release) (m : ReleaseMap) :
    (HandleRelease p r m).2 =
      (handleReleaseLoop (semverMajorMinor r.TagName) r.Created p.Additional
        (FilterAssets r.Assets (p.Primary.Accept r.TagName)) m).2 := by
  unfold HandleRelease
  rcases hl : handleReleaseLoop (semverMajorMinor r.TagName) r.Created p.Additional
    (FilterAssets r.Assets (p.Primary.Accept r.TagName)) m with ⟨o, m2⟩
  simp only [hl]
  cases o <;> rfl

/-! ### Suffix-marker reasoning for the asset order -/

theorem hasSuffixCL_iff {s sfx : GoStr} : hasSuffixCL s sfx = true ↔ sfx <:+ s := by
  unfold hasSuffixCL
  exact List.isSuffixOf_iff_suffix

theorem suffix_of_suffix_le {a b l : GoStr} (ha : a <:+ l) (hb : b <:+ l)
    (hlen : a.length ≤ b.length) : a <:+ b := by
  obtain ⟨ta, hta⟩ := ha
  obtain ⟨tb, htb⟩ := hb
  have h1 : a = l.drop ta.length := by rw [← hta, List.drop_left]
  have h2 : b = l.drop tb.length := by rw [← htb, List.drop_left]
  have e1 : ta.length + a.length = l.length := by rw [← hta]; simp
  have e2 : tb.length + b.length = l.length := by rw [← htb]; simp
  have h3 : a = b.drop (ta.length - tb.length) := by
    rw [h1, h2, List.drop_drop]
    congr 1
    omega
  rw [h3]
  exact List.drop_suffix _ _

theorem suffix_eq_of_length {a b l : GoStr} (ha : a <:+ l) (hb : b <:+ l)
    (hlen : a.length = b.length) : a = b :=
  (suffix_of_suffix_le ha hb (le_of_eq hlen)).eq_of_length hlen

/-- A name ending in the sugar-controller marker cannot also end in the
pre-install marker (both are 22 characters and differ). -/
theorem sugar_not_pre {s : GoStr} (h : hasSuffixCL s sugarControllerSuffix = true) :
    hasSuffixCL s preInstallSuffix = false := by
  cases hp : hasSuffixCL s preInstallSuffix with
  | false => rfl
  | true =>
    exact absurd
      (suffix_eq_of_length (hasSuffixCL_iff.mp h) (hasSuffixCL_iff.mp hp) (by decide))
      (by decide)

/-- A name ending in the sugar-controller marker cannot also end in the CRD
marker (the shorter marker would have to be a suffix of the longer one). -/
theorem sugar_not_crds {s : GoStr} (h : hasSuffixCL s sugarControllerSuffix = true) :
    hasSuffixCL s crdsSuffix = false := by
  cases hp : hasSuffixCL s crdsSuffix with
  | false => rfl
  | true =>
    have h3 : crdsSuffix <:+ sugarControllerSuffix :=
      suffix_of_suffix_le (hasSuffixCL_iff.mp hp) (hasSuffixCL_iff.mp h) (by decide)
    exact absurd (hasSuffixCL_iff.mpr h3) (by decide)

/-- A name ending in the sugar-controller marker cannot also end in the
post-install marker. -/
theorem sugar_not_post {s : GoStr} (h : hasSuffixCL s sugarControllerSuffix = true) :
    hasSuffixCL s postInstallSuffix = false := by
  cases hp : hasSuffixCL s postInstallSuffix with
  | false => rfl
  | true =>
    have h3 : sugarControllerSuffix <:+ postInstallSuffix :=
      suffix_of_suffix_le (hasSuffixCL_iff.mp h) (hasSuffixCL_iff.mp hp) (by decide)
    exact absurd (hasSuffixCL_iff.mpr h3) (by decide)

/-! ### Claim theorems -/

/-- Claim C1 (amended): for a target with a valid semantic-version tag and
candidates with valid tags, at least one of which shares the target's
major.minor series, the aligner picks an in-series candidate; when some
in-series candidate was created strictly before the target, the choice was
created strictly before the target and is version-maximal among such
candidates; when every in-series candidate was created at or after the
target's creation time, the choice is the version-minimal (oldest) in-series
candidate.  (The original claim's "at or before" is wrong: the code uses the
strict `r.Created.After(srcRelease.Created)`.) -/
theorem claim1_align_strict (r : Release) (cands : List Release)
    (hr : semverIsValid r.TagName = true)
    (hv : ∀ c ∈ cands, semverIsValid c.TagName = true)
    (hm : ∃ c ∈ cands, semverMajorMinor c.TagName = semverMajorMinor r.TagName) :
    ∃ ch, align r cands = some ch ∧ ch ∈ cands ∧
      semverMajorMinor ch.TagName = semverMajorMinor r.TagName ∧
      ((∃ d ∈ cands, semverMajorMinor d.TagName = semverMajorMinor r.TagName ∧
          d.Created < r.Created) →
        ch.Created < r.Created ∧
          ∀ d ∈ cands, semverMajorMinor d.TagName = semverMajorMinor r.TagName →
            d.Created < r.Created → semverCompare d.TagName ch.TagName ≤ 0) ∧
      ((∀ d ∈ cands, semverMajorMinor d.TagName = semverMajorMinor r.TagName →
          ¬(d.Created < r.Created)) →
        ∀ d ∈ cands, semverMajorMinor d.TagName = semverMajorMinor r.TagName →
          semverCompare ch.TagName d.TagName ≤ 0) :=
  align_spec r cands hr hv hm

/-- Claim C1 counterexample: a candidate created exactly at the target's
creation time is *not* "at or before" for the code: the scan uses strict
`After`, skips v1.2.5 (created at T) and picks v1.2.0, not the v1.2.5 the
claim requires. -/
theorem claim1_align_counterexample :
    align ⟨"o".data, "r".data, "v1.2.3".data, 100, []⟩
      [⟨"o".data, "d".data, "v1.2.5".data, 100, []⟩,
       ⟨"o".data, "d".data, "v1.2.0".data, 90, []⟩] =
      some ⟨"o".data, "d".data, "v1.2.0".data, 90, []⟩ ∧
    align ⟨"o".data, "r".data, "v1.2.3".data, 100, []⟩
      [⟨"o".data, "d".data, "v1.2.5".data, 100, []⟩,
       ⟨"o".data, "d".data, "v1.2.0".data, 90, []⟩] ≠
      some ⟨"o".data, "d".data, "v1.2.5".data, 100, []⟩ := by decide

/-- Target used by the C1 witness. -/
def c1wTarget : Release := ⟨"o".data, "r".data, "v1.2.3".data, 100, []⟩

/-- Candidates used by the C1 witness: the spec's own example (v1.2.0 at
T-10, v1.2.5 at T-5, v1.2.9 at T+5 against a target created at T). -/
def c1wCands : List Release :=
  [⟨"o".data, "d".data, "v1.2.0".data, 90, []⟩,
   ⟨"o".data, "d".data, "v1.2.5".data, 95, []⟩,
   ⟨"o".data, "d".data, "v1.2.9".data, 105, []⟩]

/-- Witness for C1 at the spec's worked example. -/
theorem claim1_align_witness :
    ∃ ch, align c1wTarget c1wCands = some ch ∧ ch ∈ c1wCands ∧
      semverMajorMinor ch.TagName = semverMajorMinor c1wTarget.TagName ∧
      ((∃ d ∈ c1wCands, semverMajorMinor d.TagName = semverMajorMinor c1wTarget.TagName ∧
          d.Created < c1wTarget.Created) →
        ch.Created < c1wTarget.Created ∧
          ∀ d ∈ c1wCands, semverMajorMinor d.TagName = semverMajorMinor c1wTarget.TagName →
            d.Created < c1wTarget.Created → semverCompare d.TagName ch.TagName ≤ 0) ∧
      ((∀ d ∈ c1wCands, semverMajorMinor d.TagName = semverMajorMinor c1wTarget.TagName →
          ¬(d.Created < c1wTarget.Created)) →
        ∀ d ∈ c1wCands, semverMajorMinor d.TagName = semverMajorMinor c1wTarget.TagName →
          semverCompare ch.TagName d.TagName ≤ 0) :=
  claim1_align_strict c1wTarget c1wCands (by decide) (by decide)
    ⟨⟨"o".data, "d".data, "v1.2.0".data, 90, []⟩, by decide, by decide⟩

/-- Claim C2: for a positive count and a non-empty collection of releases
with valid semantic-version tags, `LastN` returns exactly the releases of
the `n` most recent distinct major.minor series — every patch release of
each kept series, sorted descending by full version — and everything when
fewer than `n` distinct series exist.  `seriesList` enumerates the distinct
series newest-first (its strict descent is part of the statement). -/
theorem claim2_lastN_window (n : Int) (rl : List Release) (hn : 0 < n) (hne : rl ≠ [])
    (hv : ∀ x ∈ rl, semverIsValid x.TagName = true) :
    ∃ out, LastN n rl = some out ∧
      List.Pairwise (fun a b => 0 ≤ semverCompare a.TagName b.TagName) out ∧
      out.Perm (rl.filter (fun x => semverMajorMinor x.TagName ∈
        (seriesList rl).take n.toNat)) ∧
      List.Chain' (fun a b => 0 < semverCompare a b) (seriesList rl) ∧
      ((seriesList rl).length ≤ n.toNat → out.Perm rl) :=
  lastN_window n rl hn hne hv

/-- Releases used by the C2 witness: series 1.0, 1.1, 1.2 with two patch
releases each, as in the spec's example. -/
def c2wReleases : List Release :=
  [⟨"o".data, "r".data, "v1.0.0".data, 1, []⟩,
   ⟨"o".data, "r".data, "v1.0.1".data, 2, []⟩,
   ⟨"o".data, "r".data, "v1.1.0".data, 3, []⟩,
   ⟨"o".data, "r".data, "v1.1.1".data, 4, []⟩,
   ⟨"o".data, "r".data, "v1.2.0".data, 5, []⟩,
   ⟨"o".data, "r".data, "v1.2.1".data, 6, []⟩]

/-- Witness for C2 at the spec's `lastN(2, ...)` example. -/
theorem claim2_lastN_window_witness :
    ∃ out, LastN 2 c2wReleases = some out ∧
      List.Pairwise (fun a b => 0 ≤ semverCompare a.TagName b.TagName) out ∧
      out.Perm (c2wReleases.filter (fun x => semverMajorMinor x.TagName ∈
        (seriesList c2wReleases).take (2 : Int).toNat)) ∧
      List.Chain' (fun a b => 0 < semverCompare a b) (seriesList c2wReleases) ∧
      ((seriesList c2wReleases).length ≤ (2 : Int).toNat → out.Perm c2wReleases) :=
  claim2_lastN_window 2 c2wReleases (by decide) (by decide) (by decide)

/-- Claim C3: an asset whose name ends in the pre-install-jobs marker sorts
before any asset not ending in that marker, in both directions, no matter
the other asset's markers, origin flag or name; an asset whose name ends in
the sugar-controller marker sorts after any asset carrying none of the four
markers, even when its name is lexicographically smaller. -/
theorem claim3_asset_markers :
    (∀ a b : Asset, hasSuffixCL a.Name preInstallSuffix = true →
        hasSuffixCL b.Name preInstallSuffix = false →
        Asset.Less a b = true ∧ Asset.Less b a = false) ∧
    (∀ a b : Asset, hasSuffixCL a.Name sugarControllerSuffix = true →
        hasSuffixCL b.Name preInstallSuffix = false →
        hasSuffixCL b.Name crdsSuffix = false →
        hasSuffixCL b.Name postInstallSuffix = false →
        hasSuffixCL b.Name sugarControllerSuffix = false →
        Asset.Less a b = false ∧ Asset.Less b a = true) := by
  constructor
  · intro a b ha hb
    constructor
    · unfold Asset.Less
      rw [if_pos ha]
    · unfold Asset.Less
      rw [if_neg (by simp [hb]), if_pos ha]
  · intro a b ha hb1 hb2 hb3 hb4
    have ha1 := sugar_not_pre ha
    have ha2 := sugar_not_crds ha
    have ha3 := sugar_not_post ha
    constructor
    · unfold Asset.Less
      rw [if_neg (by simp [ha1]), if_neg (by simp [hb1]), if_neg (by simp [ha2]),
        if_neg (by simp [hb2]), if_neg (by simp [ha3]), if_neg (by simp [hb3]),
        if_pos ha]
    · unfold Asset.Less
      rw [if_neg (by simp [hb1]), if_neg (by simp [ha1]), if_neg (by simp [hb2]),
        if_neg (by simp [ha2]), if_neg (by simp [hb3]), if_neg (by simp [ha3]),
        if_neg (by simp [hb4]), if_pos ha]

/-- Witness for C3: a secondary pre-install job versus a primary plain asset,
and the spec's "a-sugar-controller.yaml" after "z-something.yaml". -/
theorem claim3_asset_markers_witness :
    (Asset.Less ⟨"z-pre-install-jobs.yaml".data, [], true⟩
        ⟨"a.yaml".data, [], false⟩ = true ∧
      Asset.Less ⟨"a.yaml".data, [], false⟩
        ⟨"z-pre-install-jobs.yaml".data, [], true⟩ = false) ∧
    (Asset.Less ⟨"a-sugar-controller.yaml".data, [], false⟩
        ⟨"z-something.yaml".data, [], false⟩ = false ∧
      Asset.Less ⟨"z-something.yaml".data, [], false⟩
        ⟨"a-sugar-controller.yaml".data, [], false⟩ = true) :=
  ⟨claim3_asset_markers.1 ⟨"z-pre-install-jobs.yaml".data, [], true⟩
      ⟨"a.yaml".data, [], false⟩ (by decide) (by decide),
    claim3_asset_markers.2 ⟨"a-sugar-controller.yaml".data, [], false⟩
      ⟨"z-something.yaml".data, [], false⟩
      (by decide) (by decide) (by decide) (by decide) (by decide)⟩

/-- Claim C4 counterexample: `less` is not irreflexive and not asymmetric —
an asset ending in the pre-install marker is `less` than itself, and two
distinct pre-install assets are each `less` than the other. -/
theorem claim4_not_strict_counterexample :
    Asset.Less ⟨"a-pre-install-jobs.yaml".data, [], false⟩
      ⟨"a-pre-install-jobs.yaml".data, [], false⟩ = true ∧
    Asset.Less ⟨"a-pre-install-jobs.yaml".data, [], false⟩
      ⟨"b-pre-install-jobs.yaml".data, [], false⟩ = true ∧
    Asset.Less ⟨"b-pre-install-jobs.yaml".data, [], false⟩
      ⟨"a-pre-install-jobs.yaml".data, [], false⟩ = true ∧
    (⟨"a-pre-install-jobs.yaml".data, [], false⟩ : Asset) ≠
      ⟨"b-pre-install-jobs.yaml".data, [], false⟩ := by decide

/-- Claim C4 (amended): `less` is a pure function of its two arguments, but
it is a strict order only away from the marker suffixes: restricted to
assets whose names end in none of the four lifecycle markers it is
irreflexive and asymmetric (ordering by the secondary flag and then the
name); two assets sharing the pre-install (or CRD) marker compare true in
both directions. -/
theorem claim4_less_marker_free (a b : Asset)
    (ha1 : hasSuffixCL a.Name preInstallSuffix = false)
    (ha2 : hasSuffixCL a.Name crdsSuffix = false)
    (ha3 : hasSuffixCL a.Name postInstallSuffix = false)
    (ha4 : hasSuffixCL a.Name sugarControllerSuffix = false)
    (hb1 : hasSuffixCL b.Name preInstallSuffix = false)
    (hb2 : hasSuffixCL b.Name crdsSuffix = false)
    (hb3 : hasSuffixCL b.Name postInstallSuffix = false)
    (hb4 : hasSuffixCL b.Name sugarControllerSuffix = false) :
    Asset.Less a a = false ∧ ¬(Asset.Less a b = true ∧ Asset.Less b a = true) := by
  constructor
  · unfold Asset.Less
    rw [if_neg (by simp [ha1]), if_neg (by simp [ha1]), if_neg (by simp [ha2]),
      if_neg (by simp [ha2]), if_neg (by simp [ha3]), if_neg (by simp [ha3]),
      if_neg (by simp [ha4]), if_neg (by simp [ha4]),
      if_neg (show ¬(a.secondary ≠ a.secondary) from by simp)]
    exact lexLt_irrefl a.Name
  · rintro ⟨h1, h2⟩
    unfold Asset.Less at h1 h2
    rw [if_neg (by simp [ha1]), if_neg (by simp [hb1]), if_neg (by simp [ha2]),
      if_neg (by simp [hb2]), if_neg (by simp [ha3]), if_neg (by simp [hb3]),
      if_neg (by simp [ha4]), if_neg (by simp [hb4])] at h1
    rw [if_neg (by simp [hb1]), if_neg (by simp [ha1]), if_neg (by simp [hb2]),
      if_neg (by simp [ha2]), if_neg (by simp [hb3]), if_neg (by simp [ha3]),
      if_neg (by simp [hb4]), if_neg (by simp [ha4])] at h2
    by_cases hsec : a.secondary = b.secondary
    · rw [if_neg (by simp [hsec])] at h1
      rw [if_neg (by simp [hsec])] at h2
      rw [lexLt_asymm h1] at h2
      exact Bool.false_ne_true h2
    · rw [if_pos hsec] at h1
      rw [if_pos (Ne.symm hsec)] at h2
      rw [h1] at hsec
      rw [h2] at hsec
      exact hsec rfl

/-- Witness for C4: two marker-free assets with different origin flags. -/
theorem claim4_less_marker_free_witness :
    Asset.Less ⟨"alpha.yaml".data, [], false⟩ ⟨"alpha.yaml".data, [], false⟩ = false ∧
    ¬(Asset.Less ⟨"alpha.yaml".data, [], false⟩ ⟨"beta.yaml".data, [], true⟩ = true ∧
      Asset.Less ⟨"beta.yaml".data, [], true⟩ ⟨"alpha.yaml".data, [], false⟩ = true) :=
  claim4_less_marker_free ⟨"alpha.yaml".data, [], false⟩ ⟨"beta.yaml".data, [], true⟩
    (by decide) (by decide) (by decide) (by decide)
    (by decide) (by decide) (by decide) (by decide)

theorem invalid_parse {v : GoStr} (h : semverIsValid v = false) : parseCL v = none := by
  unfold semverIsValid at h
  cases hp : parseCL v with
  | none => rfl
  | some p =>
    rw [hp] at h
    simp at h

/-- Claim C5 (amended): no version comparison ever produces an error value —
the comparison functions are total.  `semver.Compare` silently treats any two
malformed tags as equal (it returns 0, and `Release.Less` returns false in
both directions), and it silently orders a malformed tag below any valid
tag. -/
theorem claim5_malformed_silent (a b c : Release)
    (ha : semverIsValid a.TagName = false) (hb : semverIsValid b.TagName = false)
    (hc : semverIsValid c.TagName = true) :
    semverCompare a.TagName b.TagName = 0 ∧
    Release.Less a b = false ∧ Release.Less b a = false ∧
    Release.Less c a = true ∧ Release.Less a c = false := by
  have hpa := invalid_parse ha
  have hpb := invalid_parse hb
  obtain ⟨pc, hpc⟩ := Option.isSome_iff_exists.mp hc
  have h0 := semverCompare_nn hpa hpb
  have h1 := semverCompare_nn hpb hpa
  have h2 := semverCompare_sn hpc hpa
  have h3 := semverCompare_ns hpa hpc
  refine ⟨h0, ?_, ?_, ?_, ?_⟩ <;> simp [Release.Less, h0, h1, h2, h3]

/-- Claim C5 counterexample: two distinct malformed tags compare as equal
(`semver.Compare` returns 0 and `Release.Less` is false both ways), and a
malformed tag is ordered below a valid tag; no error is reported anywhere. -/
theorem claim5_malformed_counterexample :
    semverCompare "not-a-version".data "also-bad".data = 0 ∧
    "not-a-version".data ≠ "also-bad".data ∧
    Release.Less ⟨"o".data, "r".data, "not-a-version".data, 0, []⟩
      ⟨"o".data, "r".data, "also-bad".data, 0, []⟩ = false ∧
    Release.Less ⟨"o".data, "r".data, "also-bad".data, 0, []⟩
      ⟨"o".data, "r".data, "not-a-version".data, 0, []⟩ = false ∧
    semverCompare "not-a-version".data "v1.0.0".data = -1 := by decide

/-- Witness for C5: two malformed tags and one valid tag. -/
theorem claim5_malformed_silent_witness :
    semverCompare (Release.mk "o".data "r".data "bogus".data 0 []).TagName
      (Release.mk "o".data "r".data "junk".data 0 []).TagName = 0 ∧
    Release.Less ⟨"o".data, "r".data, "bogus".data, 0, []⟩
      ⟨"o".data, "r".data, "junk".data, 0, []⟩ = false ∧
    Release.Less ⟨"o".data, "r".data, "junk".data, 0, []⟩
      ⟨"o".data, "r".data, "bogus".data, 0, []⟩ = false ∧
    Release.Less ⟨"o".data, "r".data, "v0.1.0".data, 0, []⟩
      ⟨"o".data, "r".data, "bogus".data, 0, []⟩ = true ∧
    Release.Less ⟨"o".data, "r".data, "bogus".data, 0, []⟩
      ⟨"o".data, "r".data, "v0.1.0".data, 0, []⟩ = false :=
  claim5_malformed_silent ⟨"o".data, "r".data, "bogus".data, 0, []⟩
    ⟨"o".data, "r".data, "junk".data, 0, []⟩
    ⟨"o".data, "r".data, "v0.1.0".data, 0, []⟩
    (by decide) (by decide) (by decide)

/-- Claim C6 (amended): when no candidate's major.minor series compares
equal to the target's, the scan leaves `start` at -1 and `HandleRelease`
panics slicing `candidates[-1:end]` — modelled as `align` returning `none` —
instead of returning a `NoMatchingSeries` error value. -/
theorem claim6_align_no_series (r : Release) (cands : List Release)
    (h : ∀ c ∈ cands, semverCompare (semverMajorMinor r.TagName)
      (semverMajorMinor c.TagName) ≠ 0) :
    align r cands = none :=
  align_no_series r cands h

/-- Claim C6 counterexample: a target whose series (v2.0) matches no
candidate makes the Go code panic (slice bounds out of range), modelled as
`none`; no `NoMatchingSeries` error value exists in the code. -/
theorem claim6_align_counterexample :
    align ⟨"o".data, "r".data, "v2.0.0".data, 100, []⟩
      [⟨"o".data, "d".data, "v1.0.0".data, 90, []⟩] = none := by decide

/-- Witness for C6 at a different concrete input. -/
theorem claim6_align_no_series_witness :
    align ⟨"o".data, "r".data, "v3.1.0".data, 50, []⟩
      [⟨"o".data, "d".data, "v2.0.5".data, 40, []⟩,
       ⟨"o".data, "d".data, "v3.2.0".data, 45, []⟩] = none :=
  claim6_align_no_series ⟨"o".data, "r".data, "v3.1.0".data, 50, []⟩
    [⟨"o".data, "d".data, "v2.0.5".data, 40, []⟩,
     ⟨"o".data, "d".data, "v3.2.0".data, 45, []⟩]
    (by decide)

/-- Claim C7 (amended): `LastN` on an empty collection panics — `retval[0]`
indexes an empty slice, modelled as `none` — rather than returning an
`InvalidInput`/`EmptyReleaseSet` error value (no such error exists in the
code) and rather than returning a sequence. -/
theorem claim7_lastN_empty (n : Int) : LastN n [] = none := rfl

/-- Claim C7 counterexample: at the concrete count 3 the empty collection
produces the panic (`none`), not an error value. -/
theorem claim7_lastN_empty_counterexample : LastN 3 [] = none := rfl

/-- Claim C8 (amended): `HandleRelease` does not treat `allReleases` as
read-only: `sort.Sort(releaseList(candidates))` reorders each additional
source's slice in place.  What is preserved is everything but the order:
after the call the map has the same keys in the same order and, under each
key, a permutation of the original releases (the `Release` values themselves,
including their asset collections, are unchanged; asset filtering copies). -/
theorem claim8_map_effect (p : Package) (r : Release) (m : ReleaseMap) :
    MapPerm m (HandleRelease p r m).2 := by
  rw [HandleRelease_snd]
  exact handleReleaseLoop_mapPerm _ _ _ _ _

/-- Claim C8 counterexample: a successful `HandleRelease` run (it returns a
composed asset list) leaves the dependency source's release sequence in a
different order than before the call — the input map is mutated. -/
theorem claim8_mutation_counterexample :
    (HandleRelease
      ⟨"p".data, ⟨"o/r".data, fun _tag _name => []⟩,
        [⟨"o/d".data, fun _tag _name => []⟩]⟩
      ⟨"o".data, "r".data, "v1.0.5".data, 100, []⟩
      [("o/d".data, [⟨"o".data, "d".data, "v1.0.0".data, 90, []⟩,
                     ⟨"o".data, "d".data, "v1.1.0".data, 95, []⟩])]).2 ≠
      [("o/d".data, [⟨"o".data, "d".data, "v1.0.0".data, 90, []⟩,
                     ⟨"o".data, "d".data, "v1.1.0".data, 95, []⟩])] ∧
    (HandleRelease
      ⟨"p".data, ⟨"o/r".data, fun _tag _name => []⟩,
        [⟨"o/d".data, fun _tag _name => []⟩]⟩
      ⟨"o".data, "r".data, "v1.0.5".data, 100, []⟩
      [("o/d".data, [⟨"o".data, "d".data, "v1.0.0".data, 90, []⟩,
                     ⟨"o".data, "d".data, "v1.1.0".data, 95, []⟩])]).1.isSome = true := by
  decide

/-- Claim C9: `LastN` copies the input into `retval` before sorting and
truncating (`make` + `copy`), so the caller's slice after the call holds the
same releases in the same order; the result is computed from the copy. -/
theorem claim9_lastN_input_unchanged (n : Int) (rl : List Release) :
    (LastNSt n rl).2 = rl ∧ (LastNSt n rl).1 = LastN n rl :=
  ⟨rfl, rfl⟩

/-- Claim C10: for a non-positive count and a non-empty collection, `LastN`
never truncates — `minors` is decremented below zero before the `== 0` test,
which therefore never fires — and returns the entire collection sorted
descending by full version. -/
theorem claim10_lastN_nonpos (n : Int) (rl : List Release) (hn : n ≤ 0) (hne : rl ≠ []) :
    LastN n rl = some (sortReleases rl) ∧ (sortReleases rl).Perm rl ∧
      List.Pairwise (fun a b => 0 ≤ semverCompare a.TagName b.TagName)
        (sortReleases rl) :=
  ⟨lastN_nonpos n rl hn hne, sortReleases_perm rl, sortReleases_sorted rl⟩

/-- Witness for C10 at count 0 with three releases in ascending order. -/
theorem claim10_lastN_nonpos_witness :
    LastN 0 [⟨"o".data, "r".data, "v1.0.0".data, 1, []⟩,
             ⟨"o".data, "r".data, "v1.1.0".data, 3, []⟩,
             ⟨"o".data, "r".data, "v1.2.0".data, 5, []⟩] =
      some (sortReleases [⟨"o".data, "r".data, "v1.0.0".data, 1, []⟩,
             ⟨"o".data, "r".data, "v1.1.0".data, 3, []⟩,
             ⟨"o".data, "r".data, "v1.2.0".data, 5, []⟩]) ∧
    (sortReleases [⟨"o".data, "r".data, "v1.0.0".data, 1, []⟩,
             ⟨"o".data, "r".data, "v1.1.0".data, 3, []⟩,
             ⟨"o".data, "r".data, "v1.2.0".data, 5, []⟩]).Perm
      [⟨"o".data, "r".data, "v1.0.0".data, 1, []⟩,
             ⟨"o".data, "r".data, "v1.1.0".data, 3, []⟩,
             ⟨"o".data, "r".data, "v1.2.0".data, 5, []⟩] ∧
    List.Pairwise (fun a b => 0 ≤ semverCompare a.TagName b.TagName)
      (sortReleases [⟨"o".data, "r".data, "v1.0.0".data, 1, []⟩,
             ⟨"o".data, "r".data, "v1.1.0".data, 3, []⟩,
             ⟨"o".data, "r".data, "v1.2.0".data, 5, []⟩]) :=
  claim10_lastN_nonpos 0 [⟨"o".data, "r".data, "v1.0.0".data, 1, []⟩,
             ⟨"o".data, "r".data, "v1.1.0".data, 3, []⟩,
             ⟨"o".data, "r".data, "v1.2.0".data, 5, []⟩] (by decide) (by decide)
